import Mathlib

/-!
# Configuration loading of awesome-generator (`config.go`)

A shallow embedding of `config.go`: the `Config` and `Auth` records, `DefaultConfig`,
`Config.UnmarshalYAML`, `Config.String`, `Load` and `LoadFile`.

`config.go` delegates to `gopkg.in/yaml.v2`.  The library is split in two layers here:

* the text layer (the YAML grammar with the resolution of scalar tags: `parse`, and the
  emitter behind `yaml.Marshal`) is a parameter of the functions that use it; for the
  block texts that `yaml.Marshal` emits for a `Config` with plain field values the two
  are also written out (`marshalText`, `parseBlock`);
* the decoding layer (what `yaml.UnmarshalStrict` does with a parsed node tree when the
  target is a `Config`, merge keys included) is written out as functions on `Node`.

Go results `(*Config, error)` are pairs of options, and a pointer receiver that is mutated
is a value passed in and returned.
-/

namespace AwesomeGenerator

/-! ## Data model -/

/-- Auth is the Github authentication configuration (`type Auth struct`). -/
structure Auth where
  Username : String
  Password : String
  OTP : String
  AccessToken : String
deriving DecidableEq, Repr

/-- Config is the top-level configuration (`type Config struct`).  `SubTopics` is a Go
slice; a nil slice and an empty slice are both the empty list. -/
structure Config where
  Auth : Auth
  Format : String
  Topic : String
  SubTopics : List String
  OutputFile : String
deriving DecidableEq, Repr

/-- The Go zero value of `Auth`. -/
def Auth.zero : Auth := ⟨"", "", "", ""⟩

/-- The Go zero value of `Config`, what `&Config{}` points to. -/
def Config.zero : Config := ⟨Auth.zero, "", "", [], ""⟩

/-- DefaultConfig is the default top-level configuration:
`Config{OutputFile: "README.md"}`. -/
def DefaultConfig : Config := { Config.zero with OutputFile := "README.md" }

/-! ## YAML documents -/

/-- What the library makes of a scalar node (`resolve`, and the base64 step of `scalar`).

* `null`: the scalar resolves to nil (a plain empty scalar, `~`, `null`);
* `str`: the resolved value is the text itself, as a string (a quoted scalar, a plain
  scalar that resolves to `!!str`, an explicit `!!str`, a tag outside the core schema);
* `binary data`: an explicit `!!binary`; `data` is the base64 decoding of the text, `none`
  when the text is not valid base64;
* `merge`: the plain scalar `<<`, which resolves to `!!merge`;
* `other tag`: the scalar resolves to a bool, int, float or timestamp, `tag` being the
  short tag (`!!int`, ...);
* `invalid rtag tag`: an explicit core tag `tag` that the text does not match (the text
  resolves to `rtag`): `resolve` aborts. -/
inductive ScalarKind where
  | null
  | str
  | binary (data : Option String)
  | merge
  | other (tag : String)
  | invalid (rtag tag : String)
deriving DecidableEq, Repr

/-- A parsed YAML node.  A scalar carries what the library makes of it and its text; a
mapping carries its key/value pairs in document order.  Alias nodes are outside this
model. -/
inductive Node where
  | scalar (kind : ScalarKind) (text : String)
  | sequence (children : List Node)
  | mapping (children : List (Node × Node))

/-- One entry of a `*yaml.TypeError`: `cannot unmarshal <tag> <value> into <type>`,
`field <name> not found in type <type>`, `field <name> already set in type <type>`. -/
inductive TypeIssue where
  | cannotUnmarshal (tag : String) (value : String) (into : String)
  | notFound (field : String) (type : String)
  | alreadySet (field : String) (type : String)
deriving DecidableEq, Repr

/-- The Go `error` values that reach the callers of `config.go`: a `yaml: ...` error (a
text the parser rejects, or a node on which the decoder aborts), a `*yaml.TypeError`,
and the error of reading a file. -/
inductive GoError where
  | yamlFail (msg : String)
  | yamlType (issues : List TypeIssue)
  | read (msg : String)
deriving DecidableEq, Repr

/-- What the YAML parser returns for a text: a syntax error, no document at all (the
stream ends before any document starts), or the root node of the first document. -/
abbrev ParseResult := Except String (Option Node)

/-- The YAML parser of the library, a parameter of the model. -/
abbrev Parser := String → ParseResult

/-! ## The strict decoder on a `Config` target -/

/-- The result of decoding a node into a target of type `α`: the message of the abort
(`failf`), or the new value of the target with the type issues recorded on the way. -/
abbrev Decoded (α : Type) := Except String (α × List TypeIssue)

/-- The null test of the decoder (`prepare`, and `resolved == nil` in `scalar`). -/
def Node.isNull : Node → Bool
  | .scalar .null _ => true
  | _ => false

/-- The merge-key test of `mappingStruct` (`isMerge`): the plain scalar `<<`. -/
def Node.isMerge : Node → Bool
  | .scalar .merge _ => true
  | _ => false

/-- The short tag under which a scalar is reported in a type issue. -/
def ScalarKind.tag : ScalarKind → String
  | .null => "!!null"
  | .str => "!!str"
  | .binary _ => "!!binary"
  | .merge => "!!merge"
  | .other tag => tag
  | .invalid _ tag => tag

/-- The result of decoding a node into a Go `string`. -/
inductive StringResult where
  | abort (msg : String)
  | issue (e : TypeIssue)
  | value (s : String)
deriving DecidableEq, Repr

/-- Decoding of a node into a Go `string` (`scalar` with a string target): an explicit
tag that the text does not match and invalid base64 abort, null gives the zero value, a
`!!binary` gives the decoded data, any other scalar gives its text; a collection is a
type issue and leaves the target alone. -/
def unmarshalString : Node → StringResult
  | .scalar (.invalid rtag tag) text =>
    .abort ("cannot decode " ++ rtag ++ " `" ++ text ++ "` as a " ++ tag)
  | .scalar (.binary none) _ => .abort "!!binary value contains invalid base64 data"
  | .scalar (.binary (some data)) _ => .value data
  | .scalar .null _ => .value ""
  | .scalar .str text => .value text
  | .scalar .merge text => .value text
  | .scalar (.other _) text => .value text
  | .sequence _ => .issue (.cannotUnmarshal "!!seq" "" "string")
  | .mapping _ => .issue (.cannotUnmarshal "!!map" "" "string")

/-- Decoding of a scalar into a struct or slice target (`scalar` with such a target): the
same aborts, null gives the zero value `zero`, any other scalar is a type issue and
leaves the target `out` alone. -/
def scalarInto {α : Type} (zero out : α) (into : String) (kind : ScalarKind) (text : String) :
    Decoded α :=
  match kind with
  | .invalid rtag tag => .error ("cannot decode " ++ rtag ++ " `" ++ text ++ "` as a " ++ tag)
  | .binary none => .error "!!binary value contains invalid base64 data"
  | .null => .ok (zero, [])
  | k => .ok (out, [.cannotUnmarshal k.tag text into])

/-- The elements of a sequence decoded into a `[]string`, first to last: an element that
fails to decode is recorded as an issue and skipped. -/
def sequenceStrings : List Node → Decoded (List String)
  | [] => .ok ([], [])
  | n :: rest =>
    match unmarshalString n with
    | .abort msg => .error msg
    | .value v =>
      match sequenceStrings rest with
      | .error msg => .error msg
      | .ok r => .ok (v :: r.1, r.2)
    | .issue e =>
      match sequenceStrings rest with
      | .error msg => .error msg
      | .ok r => .ok (r.1, e :: r.2)

/-- Decoding of a node into the `[]string` field `out`. -/
def unmarshalStrings (n : Node) (out : List String) : Decoded (List String) :=
  match n with
  | .scalar kind text => scalarInto [] out "[]string" kind text
  | .mapping _ => .ok (out, [.cannotUnmarshal "!!map" "" "[]string"])
  | .sequence children => sequenceStrings children

/-- The fields of `Auth`. -/
inductive AuthField where
  | username
  | password
  | otp
  | accessToken
deriving DecidableEq, Repr

/-- The fields of `Config`. -/
inductive ConfigField where
  | auth
  | format
  | topic
  | subTopics
  | outputFile
deriving DecidableEq, Repr

/-- The key table of `Auth` (`getStructInfo`): the key is the `yaml` tag of the field, and
for a field without a tag the field name in lower case, which makes `otp` the key of
`OTP`. -/
def authFieldOf (key : String) : Option AuthField :=
  if key = "username" then some .username
  else if key = "password" then some .password
  else if key = "otp" then some .otp
  else if key = "access_token" then some .accessToken
  else none

/-- The key table of `Config`. -/
def configFieldOf (key : String) : Option ConfigField :=
  if key = "auth" then some .auth
  else if key = "format" then some .format
  else if key = "topic" then some .topic
  else if key = "sub_topics" then some .subTopics
  else if key = "output_file" then some .outputFile
  else none

/-- Assignment to a string field of `Auth`. -/
def Auth.set (a : Auth) (f : AuthField) (v : String) : Auth :=
  match f with
  | .username => { a with Username := v }
  | .password => { a with Password := v }
  | .otp => { a with OTP := v }
  | .accessToken => { a with AccessToken := v }

/-- The state of one `mappingStruct` run: the target, the fields already set
(`doneFields`) and the issues recorded so far. -/
structure StructState (α φ : Type) where
  out : α
  done : List φ
  terrors : List TypeIssue

/-- One key/value pair whose key is not a merge key, decoded into a struct in strict mode
(the body of the loop of `mappingStruct` after the merge test).  `fieldOf` is the key
table of the struct, `typeName` its Go name and `setField` the decoding of a value node
into a field. -/
def structPair {α φ : Type} [DecidableEq φ] (fieldOf : String → Option φ) (typeName : String)
    (setField : α → φ → Node → Decoded α) (st : StructState α φ) (kv : Node × Node) :
    Except String (StructState α φ) :=
  match unmarshalString kv.1 with
  | .abort msg => .error msg
  | .issue e => .ok { st with terrors := st.terrors ++ [e] }
  | .value name =>
    match fieldOf name with
    | none => .ok { st with terrors := st.terrors ++ [.notFound name typeName] }
    | some f =>
      if f ∈ st.done then
        .ok { st with terrors := st.terrors ++ [.alreadySet name typeName] }
      else
        match setField st.out f kv.2 with
        | .error msg => .error msg
        | .ok r => .ok { out := r.1, done := f :: st.done, terrors := st.terrors ++ r.2 }

/-- The message of `failWantMap`. -/
def wantMap : String := "map merge requires map or sequence of maps as the value"

mutual
/-- The loop of strict `mappingStruct`: the pairs are taken in document order; the value
of a merge key is decoded into the same target at the place where the key stands. -/
def structLoop {α φ : Type} [DecidableEq φ] (fieldOf : String → Option φ) (typeName : String)
    (setField : α → φ → Node → Decoded α) :
    List (Node × Node) → StructState α φ → Except String (StructState α φ)
  | [], st => .ok st
  | (k, v) :: rest, st =>
    if k.isMerge then
      match mergeInto fieldOf typeName setField v st.out with
      | .error msg => .error msg
      | .ok r =>
        structLoop fieldOf typeName setField rest
          { st with out := r.1, terrors := st.terrors ++ r.2 }
    else
      match structPair fieldOf typeName setField st (k, v) with
      | .error msg => .error msg
      | .ok st2 => structLoop fieldOf typeName setField rest st2
/-- The value of a merge key decoded into the struct (`merge`): a mapping is decoded by a
run of `mappingStruct` of its own, with no field marked as set; a sequence must hold
mappings, which are decoded last to first; anything else aborts. -/
def mergeInto {α φ : Type} [DecidableEq φ] (fieldOf : String → Option φ) (typeName : String)
    (setField : α → φ → Node → Decoded α) : Node → α → Decoded α
  | .mapping pairs, out =>
    match structLoop fieldOf typeName setField pairs ⟨out, [], []⟩ with
    | .error msg => .error msg
    | .ok st => .ok (st.out, st.terrors)
  | .sequence items, out => mergeSeq fieldOf typeName setField items out
  | .scalar _ _, _ => .error wantMap
/-- The elements of a merged sequence, decoded last to first. -/
def mergeSeq {α φ : Type} [DecidableEq φ] (fieldOf : String → Option φ) (typeName : String)
    (setField : α → φ → Node → Decoded α) : List Node → α → Decoded α
  | [], out => .ok (out, [])
  | n :: rest, out =>
    match mergeSeq fieldOf typeName setField rest out with
    | .error msg => .error msg
    | .ok r =>
      match n with
      | .mapping pairs =>
        match structLoop fieldOf typeName setField pairs ⟨r.1, [], []⟩ with
        | .error msg => .error msg
        | .ok st => .ok (st.out, r.2 ++ st.terrors)
      | _ => .error wantMap
end

/-- Strict `mappingStruct`: the loop started with no field set. -/
def mappingStruct {α φ : Type} [DecidableEq φ] (fieldOf : String → Option φ) (typeName : String)
    (setField : α → φ → Node → Decoded α) (pairs : List (Node × Node)) (out : α) :
    Decoded α :=
  match structLoop fieldOf typeName setField pairs ⟨out, [], []⟩ with
  | .error msg => .error msg
  | .ok st => .ok (st.out, st.terrors)

/-- Decoding of the value node of a recognized key into the matching field of `Auth`;
every field is a string. -/
def authField (a : Auth) (f : AuthField) (v : Node) : Decoded Auth :=
  match unmarshalString v with
  | .abort msg => .error msg
  | .value s => .ok (a.set f s, [])
  | .issue e => .ok (a, [e])

/-- Strict `mappingStruct` on an `Auth` target. -/
def mappingStructAuth (pairs : List (Node × Node)) (out : Auth) : Decoded Auth :=
  mappingStruct authFieldOf "main.Auth" authField pairs out

/-- Decoding of a node into the `Auth` field `out`. -/
def unmarshalAuth (n : Node) (out : Auth) : Decoded Auth :=
  match n with
  | .scalar kind text => scalarInto Auth.zero out "main.Auth" kind text
  | .sequence _ => .ok (out, [.cannotUnmarshal "!!seq" "" "main.Auth"])
  | .mapping pairs => mappingStructAuth pairs out

/-- Decoding of the value node of a recognized key into the matching field of `plain`. -/
def plainField (c : Config) (f : ConfigField) (v : Node) : Decoded Config :=
  match f with
  | .auth =>
    match unmarshalAuth v c.Auth with
    | .error msg => .error msg
    | .ok r => .ok ({ c with Auth := r.1 }, r.2)
  | .format =>
    match unmarshalString v with
    | .abort msg => .error msg
    | .value s => .ok ({ c with Format := s }, [])
    | .issue e => .ok (c, [e])
  | .topic =>
    match unmarshalString v with
    | .abort msg => .error msg
    | .value s => .ok ({ c with Topic := s }, [])
    | .issue e => .ok (c, [e])
  | .subTopics =>
    match unmarshalStrings v c.SubTopics with
    | .error msg => .error msg
    | .ok r => .ok ({ c with SubTopics := r.1 }, r.2)
  | .outputFile =>
    match unmarshalString v with
    | .abort msg => .error msg
    | .value s => .ok ({ c with OutputFile := s }, [])
    | .issue e => .ok (c, [e])

/-- Strict `mappingStruct` on a `plain` target (`plain` is the method-free copy of
`Config`). -/
def mappingStructPlain (pairs : List (Node × Node)) (out : Config) : Decoded Config :=
  mappingStruct configFieldOf "main.plain" plainField pairs out

/-- Decoding of a node into a `plain`: what the `unmarshal` argument of `UnmarshalYAML`
does with `(*plain)(c)`. -/
def unmarshalPlain (n : Node) (out : Config) : Decoded Config :=
  match n with
  | .scalar kind text => scalarInto Config.zero out "main.plain" kind text
  | .sequence _ => .ok (out, [.cannotUnmarshal "!!seq" "" "main.plain"])
  | .mapping pairs => mappingStructPlain pairs out

/-! ## `config.go` -/

/-- UnmarshalYAML implements the `yaml.Unmarshaler` interface: the receiver is set to
`DefaultConfig` and then handed to `unmarshal` through the method-free type `plain`. -/
def Config.UnmarshalYAML (_c : Config) (unmarshal : Config → Config × Option GoError) :
    Config × Option GoError :=
  let c := DefaultConfig
  match unmarshal c with
  | (c, some err) => (c, some err)
  | (c, none) => (c, none)

/-- The closure the decoder passes to `UnmarshalYAML` (`callUnmarshaler`): it decodes the
node into its argument and reports the issues of that run as one `*yaml.TypeError`, or
the abort as a `yaml: ...` error.  What an aborted run had already written into the
target is not tracked: the argument comes back as it was. -/
def unmarshalClosure (n : Node) (v : Config) : Config × Option GoError :=
  match unmarshalPlain n v with
  | .error msg => (v, some (.yamlFail msg))
  | .ok r => if r.2 = [] then (r.1, none) else (r.1, some (.yamlType r.2))

/-- The decoder applied to the root node with the target `*cfg`: a null root bypasses the
`Unmarshaler` and zeroes the target, any other root goes through `UnmarshalYAML`.  The
second component is the error `yaml.UnmarshalStrict` ends with. -/
def unmarshalRoot (n : Node) (cfg : Config) : Config × Option GoError :=
  if n.isNull then (Config.zero, none)
  else
    match Config.UnmarshalYAML cfg (unmarshalClosure n) with
    | (c, some (.yamlType issues)) => (c, if issues = [] then none else some (.yamlType issues))
    | (c, some err) => (c, some err)
    | (c, none) => (c, none)

/-- The call `yaml.UnmarshalStrict([]byte(s), cfg)`: when the text holds no document the
decoder is not run and the target is left as it was. -/
def UnmarshalStrict (parse : Parser) (s : String) (cfg : Config) : Config × Option GoError :=
  match parse s with
  | .error msg => (cfg, some (.yamlFail msg))
  | .ok none => (cfg, none)
  | .ok (some n) => unmarshalRoot n cfg

/-- Load parses the YAML input s into a Config. -/
def Load (parse : Parser) (s : String) : Option Config × Option GoError :=
  let cfg := Config.zero
  match UnmarshalStrict parse s cfg with
  | (_, some err) => (none, some err)
  | (cfg, none) => (some cfg, none)

/-- A file-system state: the content of the file at a path, or the message of the error
that reading it gives. -/
abbrev FileSystem := String → Except String String

/-- The call `ioutil.ReadFile(filename)` on a file-system state. -/
def ReadFile (fs : FileSystem) (filename : String) : Except GoError String :=
  match fs filename with
  | .ok content => .ok content
  | .error msg => .error (.read msg)

/-- LoadFile parses the given YAML file into a Config. -/
def LoadFile (parse : Parser) (fs : FileSystem) (filename : String) :
    Option Config × Option GoError :=
  match ReadFile fs filename with
  | .error err => (none, some err)
  | .ok content =>
    match Load parse content with
    | (_, some err) => (none, some err)
    | (cfg, none) => (cfg, none)

/-- The serializer behind `yaml.Marshal(c)`, a parameter of the model: the YAML text, or
the message of the error. -/
abbrev Marshaler := Config → Except String String

/-- String represents Configuration instance as string. -/
def Config.String (marshal : Marshaler) (c : Config) : String :=
  match marshal c with
  | .error err => "<error creating config string: " ++ err ++ ">"
  | .ok b => b

/-! ## The document built by `yaml.Marshal` -/

/-- A string scalar node. -/
def Node.str (v : String) : Node := .scalar .str v

/-- The node tree of `yaml.Marshal(a)` for an `Auth`: one entry per exported field, in
declaration order, under the key of the field; no field is omitted when empty. -/
def marshalAuthNode (a : Auth) : Node :=
  .mapping [(.str "username", .str a.Username), (.str "password", .str a.Password),
    (.str "otp", .str a.OTP), (.str "access_token", .str a.AccessToken)]

/-- The node tree of `yaml.Marshal(c)` for a `Config`.  The encoder quotes a string that
would otherwise resolve to another tag, so every string is read back as a `!!str`. -/
def marshalNode (c : Config) : Node :=
  .mapping [(.str "auth", marshalAuthNode c.Auth), (.str "format", .str c.Format),
    (.str "topic", .str c.Topic), (.str "sub_topics", .sequence (c.SubTopics.map Node.str)),
    (.str "output_file", .str c.OutputFile)]

/-! ## Example texts -/

/-- The configuration of scenario A with a one-time password added. -/
def exampleConfig : Config :=
  ⟨⟨"", "", "123456", ""⟩, "", "golang", ["web", "cli"], "OUT.md"⟩

/-- The text `yaml.Marshal` emits for `exampleConfig`. -/
def exampleText : String :=
  "auth:\n  username: \"\"\n  password: \"\"\n  otp: \"123456\"\n  access_token: \"\"\n" ++
  "format: \"\"\ntopic: golang\nsub_topics:\n- web\n- cli\noutput_file: OUT.md\n"

/-- The parses of the example texts, as the YAML grammar gives them. -/
def exampleDocs : List (String × ParseResult) :=
  [("", .ok none),
   ("{}", .ok (some (.mapping []))),
   ("topic: golang\noutput_file: OUT.md\n",
     .ok (some (.mapping [(.str "topic", .str "golang"), (.str "output_file", .str "OUT.md")]))),
   ("auth:\n  access_token: abc123\ntopic: rust\n",
     .ok (some (.mapping [(.str "auth", .mapping [(.str "access_token", .str "abc123")]),
       (.str "topic", .str "rust")]))),
   ("topic: go\nbogus_field: 1\n",
     .ok (some (.mapping [(.str "topic", .str "go"),
       (.str "bogus_field", .scalar (.other "!!int") "1")]))),
   ("auth:\n  otp: \"123456\"\n",
     .ok (some (.mapping [(.str "auth", .mapping [(.str "otp", .str "123456")])]))),
   ("topic: [a, b]\n",
     .ok (some (.mapping [(.str "topic", .sequence [.str "a", .str "b"])]))),
   ("topic: a\ntopic: b\n",
     .ok (some (.mapping [(.str "topic", .str "a"), (.str "topic", .str "b")]))),
   ("topic: !!int abc\n",
     .ok (some (.mapping [(.str "topic", .scalar (.invalid "!!str" "!!int") "abc")]))),
   ("<<: \x7btopic: x\x7d\n",
     .ok (some (.mapping [(.scalar .merge "<<", .mapping [(.str "topic", .str "x")])]))),
   ("topic: b\n<<: \x7btopic: a\x7d\n",
     .ok (some (.mapping [(.str "topic", .str "b"),
       (.scalar .merge "<<", .mapping [(.str "topic", .str "a")])]))),
   ("topic: [a\n", .error "did not find expected ',' or ']'"),
   (exampleText, .ok (some (marshalNode exampleConfig)))]

/-- A parser that knows the example texts and rejects every other text. -/
def exampleParse : Parser := fun s =>
  match exampleDocs.lookup s with
  | some r => r
  | none => .error "not an example text"

/-- A serializer that knows `exampleConfig` and fails on every other value. -/
def exampleMarshal : Marshaler := fun c =>
  if c = exampleConfig then .ok exampleText else .error "not an example value"

/-- A file-system state with one configuration file. -/
def exampleFS : FileSystem := fun path =>
  if path = "config.yml" then .ok "topic: golang\noutput_file: OUT.md\n"
  else .error ("open " ++ path ++ ": no such file or directory")

/-! ## Predicates on documents used in the statements -/

/-- The string value that a scalar node writes: its text, except that a null scalar
writes the empty string and a `!!binary` scalar the data it encodes; a scalar whose tag
does not resolve, and a collection, write no string. -/
def writtenString : Node → Option String
  | .scalar .null _ => some ""
  | .scalar .str text => some text
  | .scalar .merge text => some text
  | .scalar (.other _) text => some text
  | .scalar (.binary data) _ => data
  | .scalar (.invalid _ _) _ => none
  | .sequence _ => none
  | .mapping _ => none

/-- The keys of the top level that the spec lists, section 6. -/
def recognizedKeys : List String := ["auth", "format", "topic", "sub_topics", "output_file"]

/-- The keys of the `auth` mapping: those that the spec lists, and `otp`. -/
def recognizedAuthKeys : List String := ["username", "password", "otp", "access_token"]

/-- The key of the pair is not a merge key and writes one of `names`. -/
def keyIn (names : List String) (kv : Node × Node) : Bool :=
  !kv.1.isMerge &&
    match writtenString kv.1 with
    | some name => names.contains name
    | none => false

/-- The key of the pair is not a merge key and is not one of `names`: it writes another
string, or no string at all. -/
def unknownKey (names : List String) (kv : Node × Node) : Bool :=
  !kv.1.isMerge &&
    match writtenString kv.1 with
    | some name => !names.contains name
    | none => true

/-- The pair is an `auth` entry whose value is a mapping with a key, other than a merge
key, that is not a recognized key of `auth`. -/
def authWithUnknownKey (kv : Node × Node) : Bool :=
  !kv.1.isMerge &&
    match writtenString kv.1, kv.2 with
    | some name, .mapping pairs => name == "auth" && pairs.any (unknownKey recognizedAuthKeys)
    | _, _ => false

/-- The document is a mapping with a key, other than a merge key, that is not a
recognized key, at the top level or inside an `auth` mapping. -/
def hasUnknownKey : Node → Bool
  | .mapping pairs => pairs.any fun kv => unknownKey recognizedKeys kv || authWithUnknownKey kv
  | _ => false

/-- No key of the mapping is a merge key. -/
def mergeFree (pairs : List (Node × Node)) : Bool :=
  pairs.all fun kv => !kv.1.isMerge

/-- No key of the mapping writes `name`. -/
def keyAbsent (name : String) (pairs : List (Node × Node)) : Bool :=
  pairs.all fun kv => writtenString kv.1 != some name

/-- The node is a scalar that writes a string. -/
def writesString (n : Node) : Bool := (writtenString n).isSome

/-- The value of an `auth` key has the kind of an `Auth`: null, or a mapping whose keys
are pairwise different recognized keys of `auth` and whose values are scalars that write
a string. -/
def authFits : Node → Bool
  | .scalar .null _ => true
  | .mapping aps =>
    aps.all (fun kv => keyIn recognizedAuthKeys kv && writesString kv.2) &&
      decide (aps.map fun kv => writtenString kv.1).Nodup
  | _ => false

/-- The value of the key `name` has the kind of its field: an `Auth` for `auth`, null or
a sequence of scalars that write a string for `sub_topics`, a scalar that writes a string
for the other keys. -/
def valueFits (name : String) (v : Node) : Bool :=
  if name = "auth" then authFits v
  else if name = "sub_topics" then
    match v with
    | .scalar .null _ => true
    | .sequence items => items.all writesString
    | _ => false
  else writesString v

/-- The document is a mapping whose keys are pairwise different recognized keys, none a
merge key, and whose values have the kind of their field. -/
def wellTyped : Node → Bool
  | .mapping pairs =>
    pairs.all (fun kv => keyIn recognizedKeys kv &&
      match writtenString kv.1 with
      | some name => valueFits name kv.2
      | none => false) &&
      decide (pairs.map fun kv => writtenString kv.1).Nodup
  | _ => false

/-- The document has no merge key at the top level, and every `auth` mapping in it has
no merge key and no key `otp`. -/
def otpFree : Node → Bool
  | .mapping pairs => pairs.all fun kv =>
    !kv.1.isMerge &&
      match kv.2 with
      | .mapping aps => writtenString kv.1 != some "auth" || (mergeFree aps && keyAbsent "otp" aps)
      | _ => true
  | _ => true

/-- The field that the key of a pair names in the key table `fieldOf`, if any. -/
def keyField {φ : Type} (fieldOf : String → Option φ) (kv : Node × Node) : Option φ :=
  match unmarshalString kv.1 with
  | .value name => fieldOf name
  | _ => none

/-- The YAML key of a field of `Auth`. -/
def AuthField.key : AuthField → String
  | .username => "username"
  | .password => "password"
  | .otp => "otp"
  | .accessToken => "access_token"

/-- The YAML key of a field of `Config`. -/
def ConfigField.key : ConfigField → String
  | .auth => "auth"
  | .format => "format"
  | .topic => "topic"
  | .subTopics => "sub_topics"
  | .outputFile => "output_file"

/-- The value of a field of `Auth`. -/
def Auth.get (a : Auth) : AuthField → String
  | .username => a.Username
  | .password => a.Password
  | .otp => a.OTP
  | .accessToken => a.AccessToken

/-- The value held by a field of `Config`. -/
inductive FieldValue where
  | auth (a : Auth)
  | str (s : String)
  | strs (l : List String)
deriving DecidableEq, Repr

/-- The value of a field of `Config`. -/
def Config.get (c : Config) : ConfigField → FieldValue
  | .auth => .auth c.Auth
  | .format => .str c.Format
  | .topic => .str c.Topic
  | .subTopics => .strs c.SubTopics
  | .outputFile => .str c.OutputFile

/-! ## The text of plain documents

For a `Config` whose strings are plain values (empty, a plain word, or a short string of
digits) the text that `yaml.Marshal` emits is written out, and so is the parse of the
block texts of that shape.  Outside this class both stay with the parameters. -/

/-- The characters of a plain word: ASCII letters and digits, `_`, `-` and `.`. -/
def wordChar (c : Char) : Bool :=
  c.isAlpha || c.isDigit || c == '_' || c == '-' || c == '.'

/-- The words that the library resolves to a bool or to null (`resolveMap`). -/
def reservedWords : List String :=
  ["y", "Y", "yes", "Yes", "YES", "on", "On", "ON", "true", "True", "TRUE",
   "n", "N", "no", "No", "NO", "off", "Off", "OFF", "false", "False", "FALSE",
   "null", "Null", "NULL"]

/-- A plain word: it starts with an ASCII letter, holds word characters only and is not
a reserved word.  As a plain scalar it resolves to `!!str`, and the encoder emits the
string in plain style. -/
def plainWord (w : List Char) : Bool :=
  match w with
  | [] => false
  | c :: cs => c.isAlpha && cs.all wordChar && !reservedWords.contains (String.mk (c :: cs))

/-- A string of 1 to 18 ASCII digits: as a plain scalar it resolves to an int or a float,
so the encoder emits the string in double quotes. -/
def digitWord (w : List Char) : Bool :=
  !w.isEmpty && w.all Char.isDigit && decide (w.length ≤ 18)

/-- A decimal integer of at most 18 digits without a leading zero: as a plain scalar it
resolves to `!!int`. -/
def simpleInt (w : List Char) : Bool :=
  match w with
  | [] => false
  | c :: cs => (c.isDigit && (c != '0' || cs.isEmpty)) && cs.all Char.isDigit &&
      decide (cs.length < 18)

/-- The presentation of a string by the encoder (`stringv`), for a plain value: the empty
string and a string of digits in double quotes, a plain word as it is. -/
def scalarChars (s : String) : Option (List Char) :=
  if s.data.isEmpty then some ['"', '"']
  else if plainWord s.data then some s.data
  else if digitWord s.data then some ('"' :: s.data ++ ['"'])
  else none

/-- The line `<indent><key>: <value>`. -/
def entryLine (indent : List Char) (key : String) (value : List Char) : List Char :=
  indent ++ key.data ++ ':' :: ' ' :: value

/-- The lines `- <value>` of a sequence of strings. -/
def itemLines : List String → Option (List (List Char))
  | [] => some []
  | s :: rest =>
    match scalarChars s, itemLines rest with
    | some v, some ls => some (('-' :: ' ' :: v) :: ls)
    | _, _ => none

/-- The lines of the `sub_topics` entry: `sub_topics: []` for the empty slice, otherwise
`sub_topics:` followed by the items, which the emitter does not indent. -/
def subTopicLines (l : List String) : Option (List (List Char)) :=
  match l with
  | [] => some ["sub_topics: []".data]
  | s :: rest =>
    match itemLines (s :: rest) with
    | some ls => some ("sub_topics:".data :: ls)
    | none => none

/-- The lines that `yaml.Marshal` emits for a `Config` with plain values: one entry per
exported field in declaration order, under the `yaml` tag of the field or, without a
tag, the field name in lower case (`otp`); the fields of `auth` indented by two spaces. -/
def marshalLines (c : Config) : Option (List (List Char)) :=
  match scalarChars c.Auth.Username, scalarChars c.Auth.Password, scalarChars c.Auth.OTP,
    scalarChars c.Auth.AccessToken, scalarChars c.Format, scalarChars c.Topic,
    subTopicLines c.SubTopics, scalarChars c.OutputFile with
  | some u, some p, some o, some a, some f, some t, some sub, some out =>
    some (["auth:".data, entryLine [' ', ' '] "username" u, entryLine [' ', ' '] "password" p,
      entryLine [' ', ' '] "otp" o, entryLine [' ', ' '] "access_token" a,
      entryLine [] "format" f, entryLine [] "topic" t] ++ sub ++
      [entryLine [] "output_file" out])
  | _, _, _, _, _, _, _, _ => none

/-- The text of a list of lines: every line is ended by a newline. -/
def joinLines : List (List Char) → List Char
  | [] => []
  | l :: ls => l ++ '\n' :: joinLines ls

/-- The text that `yaml.Marshal` emits for a `Config` with plain values. -/
def marshalText (c : Config) : Option String :=
  match marshalLines c with
  | some ls => some (String.mk (joinLines ls))
  | none => none

/-- A serializer that emits `marshalText` where it is defined and is `fallback`
elsewhere. -/
def blockMarshal (fallback : Marshaler) : Marshaler := fun c =>
  match marshalText c with
  | some t => .ok t
  | none => fallback c

/-- The pieces of a text between its newlines. -/
def segments : List Char → List (List Char)
  | [] => [[]]
  | c :: cs =>
    if c = '\n' then [] :: segments cs
    else
      match segments cs with
      | [] => [[c]]
      | l :: ls => (c :: l) :: ls

/-- The lines of a text all of whose lines are ended by a newline: the segments without
the empty last one. -/
def stripFinal : List (List Char) → Option (List (List Char))
  | [] => none
  | [l] => if l.isEmpty then some [] else none
  | l :: l2 :: rest =>
    match stripFinal (l2 :: rest) with
    | some ls => some (l :: ls)
    | none => none

/-- The scalar that a value text stands for, in the grammar modelled: a double-quoted
string of word characters, a plain word, a plain integer. -/
def parseScalar (v : List Char) : Option Node :=
  match v with
  | [] => none
  | c :: cs =>
    if c = '"' then
      if cs.dropWhile wordChar = ['"'] then some (.scalar .str (String.mk (cs.takeWhile wordChar)))
      else none
    else if plainWord (c :: cs) then some (.scalar .str (String.mk (c :: cs)))
    else if simpleInt (c :: cs) then some (.scalar (.other "!!int") (String.mk (c :: cs)))
    else none

/-- The node that a value text stands for: the empty flow sequence `[]`, or a scalar. -/
def parseValue (v : List Char) : Option Node :=
  if v = ['[', ']'] then some (.sequence []) else parseScalar v

/-- The key, and the value if there is one, of a line `<key>:` or `<key>: <value>` whose
key is a plain word. -/
def parseEntry (l : List Char) : Option (String × Option Node) :=
  if plainWord (l.takeWhile wordChar) then
    match l.dropWhile wordChar with
    | [] => none
    | c :: after =>
      if c = ':' then
        match after with
        | [] => some (String.mk (l.takeWhile wordChar), none)
        | d :: v =>
          if d = ' ' then
            match parseValue v with
            | some n => some (String.mk (l.takeWhile wordChar), some n)
            | none => none
          else none
      else none
  else none

/-- A line of a block text, in the grammar modelled: `<key>: <value>` and `<key>:` at the
left margin, `<key>: <value>` indented by two spaces, `- <scalar>` at the left margin. -/
inductive Line where
  | entry (key : String) (value : Node)
  | openKey (key : String)
  | nested (key : String) (value : Node)
  | item (value : Node)

/-- The line that a text line stands for, if it is in the grammar. -/
def parseLine (l : List Char) : Option Line :=
  match l with
  | [] => none
  | c :: cs =>
    if c = '-' then
      match cs with
      | [] => none
      | d :: v =>
        if d = ' ' then
          match parseScalar v with
          | some n => some (.item n)
          | none => none
        else none
    else if c = ' ' then
      match cs with
      | [] => none
      | d :: e =>
        if d = ' ' then
          match parseEntry e with
          | some (k, some n) => some (.nested k n)
          | _ => none
        else none
    else
      match parseEntry (c :: cs) with
      | some (k, some n) => some (.entry k n)
      | some (k, none) => some (.openKey k)
      | none => none

/-- The lines that the text lines stand for, if all are in the grammar. -/
def parseLines : List (List Char) → Option (List Line)
  | [] => some []
  | l :: ls =>
    match parseLine l, parseLines ls with
    | some x, some xs => some (x :: xs)
    | _, _ => none

/-- The state of the assembly of a block mapping, which reads the lines last to first:
the entries of the top level found so far, and the indented entries and the items that
wait for the key they belong to. -/
structure Pending where
  entries : List (Node × Node)
  nested : List (Node × Node)
  items : List Node

/-- One line added in front of what is assembled.  A key without a value takes the
indented entries as its mapping or the items as its sequence, and is null when neither
waits. -/
def assemble (line : Line) (acc : Option Pending) : Option Pending :=
  match acc with
  | none => none
  | some p =>
    match line with
    | .item v => if p.nested.isEmpty then some { p with items := v :: p.items } else none
    | .nested k v =>
      if p.items.isEmpty then some { p with nested := (.scalar .str k, v) :: p.nested } else none
    | .entry k v =>
      if p.nested.isEmpty && p.items.isEmpty then
        some { p with entries := (.scalar .str k, v) :: p.entries }
      else none
    | .openKey k =>
      match p.nested, p.items with
      | [], [] => some ⟨(.scalar .str k, .scalar .null "") :: p.entries, [], []⟩
      | n :: ns, [] => some ⟨(.scalar .str k, .mapping (n :: ns)) :: p.entries, [], []⟩
      | [], i :: is => some ⟨(.scalar .str k, .sequence (i :: is)) :: p.entries, [], []⟩
      | _ :: _, _ :: _ => none

/-- The root node of a block text in the grammar modelled: a mapping of one or more
entries. -/
def parseChars (text : List Char) : Option Node :=
  match stripFinal (segments text) with
  | none => none
  | some [] => none
  | some (l :: ls) =>
    match parseLines (l :: ls) with
    | none => none
    | some xs =>
      match xs.foldr assemble (some ⟨[], [], []⟩) with
      | some ⟨entries, [], []⟩ => some (.mapping entries)
      | _ => none

/-- The root node of a block text in the grammar modelled. -/
def parseBlock (s : String) : Option Node := parseChars s.data

/-- A parser that reads the block texts of the grammar modelled and is `fallback`
elsewhere. -/
def blockParse (fallback : Parser) : Parser := fun s =>
  match parseBlock s with
  | some n => .ok (some n)
  | none => fallback s

/-- A serializer for the values outside the class modelled: none is known. -/
def noMarshal : Marshaler := fun _ => .error "value outside the modelled class"

/-- A parser for the texts outside the grammar modelled: none is known. -/
def noParse : Parser := fun _ => .error "text outside the modelled grammar"

/-- A plain value: the empty string, a plain word, or a string of 1 to 18 digits. -/
def plainValue (s : String) : Bool :=
  s.data.isEmpty || plainWord s.data || digitWord s.data

/-- A `Config` all of whose strings are plain values. -/
def plainConfig (c : Config) : Bool :=
  plainValue c.Auth.Username && plainValue c.Auth.Password && plainValue c.Auth.OTP &&
    plainValue c.Auth.AccessToken && plainValue c.Format && plainValue c.Topic &&
    c.SubTopics.all plainValue && plainValue c.OutputFile

/-! ## Basic facts about the decoder entry points -/

/-- On a root that is not null the decoder runs `UnmarshalYAML`, so the target is decoded
from `DefaultConfig`, whatever it held before. -/
theorem unmarshalRoot_of_not_null (n : Node) (cfg : Config) (hn : n.isNull = false) :
    unmarshalRoot n cfg = unmarshalClosure n DefaultConfig := by
  unfold unmarshalRoot Config.UnmarshalYAML
  simp only [hn, Bool.false_eq_true, if_false]
  unfold unmarshalClosure
  cases h : unmarshalPlain n DefaultConfig with
  | error msg => simp
  | ok r =>
    by_cases h2 : r.2 = []
    · simp [h2]
    · simp [h2]

/-- Load in terms of the decoding of a root that is not null. -/
theorem Load_of_root (parse : Parser) (s : String) (n : Node) (hp : parse s = .ok (some n))
    (hn : n.isNull = false) :
    Load parse s = match unmarshalPlain n DefaultConfig with
      | .error msg => (none, some (.yamlFail msg))
      | .ok r => if r.2 = [] then (some r.1, none) else (none, some (.yamlType r.2)) := by
  unfold Load UnmarshalStrict
  simp only [hp, unmarshalRoot_of_not_null n _ hn]
  unfold unmarshalClosure
  cases h : unmarshalPlain n DefaultConfig with
  | error msg => simp
  | ok r =>
    by_cases h2 : r.2 = []
    · simp [h2]
    · simp [h2]

/-- Load on a text that holds no document: the decoder is never run and the zero Config
comes back. -/
theorem Load_of_no_document (parse : Parser) (s : String) (hp : parse s = .ok none) :
    Load parse s = (some Config.zero, none) := by
  simp [Load, UnmarshalStrict, hp]

/-- Load on a text the parser rejects. -/
theorem Load_of_parse_error (parse : Parser) (s msg : String) (hp : parse s = .error msg) :
    Load parse s = (none, some (.yamlFail msg)) := by
  simp [Load, UnmarshalStrict, hp]

/-- Load on a text whose root is null returns the zero Config. -/
theorem Load_of_null_root (parse : Parser) (s : String) (n : Node)
    (hp : parse s = .ok (some n)) (hn : n.isNull = true) :
    Load parse s = (some Config.zero, none) := by
  simp [Load, UnmarshalStrict, hp, unmarshalRoot, hn]

/-- The error of `UnmarshalStrict` is never a read error. -/
theorem UnmarshalStrict_error_ne_read (parse : Parser) (s : String) (cfg : Config)
    (msg : String) : (UnmarshalStrict parse s cfg).2 ≠ some (.read msg) := by
  unfold UnmarshalStrict
  cases hp : parse s with
  | error m => simp
  | ok o =>
    cases o with
    | none => simp
    | some n =>
      cases hn : n.isNull with
      | true => simp [unmarshalRoot, hn]
      | false =>
        simp only [unmarshalRoot_of_not_null n _ hn]
        unfold unmarshalClosure
        cases h : unmarshalPlain n DefaultConfig with
        | error m => simp
        | ok r =>
          by_cases h2 : r.2 = []
          · simp [h2]
          · simp [h2]

/-- Load returns what `UnmarshalStrict` on a zero Config returns, with the Config dropped
when there is an error. -/
theorem Load_eq (parse : Parser) (s : String) :
    Load parse s = match (UnmarshalStrict parse s Config.zero).2 with
      | some err => (none, some err)
      | none => (some (UnmarshalStrict parse s Config.zero).1, none) := by
  unfold Load
  rcases h : UnmarshalStrict parse s Config.zero with ⟨c, _ | e⟩ <;> simp [h]

/-! ## C3: the empty document -/

/-- C3 (the code departs from the claim): on the empty text the parser finds no document,
the decoder and `UnmarshalYAML` are never run, and Load returns the zero Config, whose
OutputFile is empty, not DefaultConfig. -/
theorem Load_empty_text_is_zero_not_default :
    Load exampleParse "" = (some Config.zero, none) ∧
      Config.zero.OutputFile = "" ∧ DefaultConfig.OutputFile = "README.md" ∧
      Load exampleParse "" ≠ (some DefaultConfig, none) := by
  refine ⟨Load_of_no_document _ _ (by rfl), by rfl, by rfl, ?_⟩
  rw [Load_of_no_document _ _ (by rfl)]
  decide

/-! ## C8: LoadFile -/

/-- C8: LoadFile is a read followed by Load.  When reading the path fails, LoadFile
returns that read error and no Config, whatever the parser is (Load is not applied), and
the error is not one that Load can return; when reading gives the content s, LoadFile
returns what Load returns on s. -/
theorem LoadFile_read_then_Load (parse : Parser) (fs : FileSystem) (p : String) :
    (∀ msg, fs p = .error msg →
      LoadFile parse fs p = (none, some (.read msg)) ∧
      (∀ parse2 : Parser, LoadFile parse2 fs p = (none, some (.read msg))) ∧
      (∀ s, (Load parse s).2 ≠ some (.read msg))) ∧
    (∀ s, fs p = .ok s → LoadFile parse fs p = Load parse s) := by
  constructor
  · intro msg h
    refine ⟨by simp [LoadFile, ReadFile, h], fun parse2 => by simp [LoadFile, ReadFile, h], ?_⟩
    intro s
    have hne := UnmarshalStrict_error_ne_read parse s Config.zero msg
    rw [Load_eq]
    rcases hu : (UnmarshalStrict parse s Config.zero).2 with _ | e
    · simp
    · rw [hu] at hne
      simpa using hne
  · intro s h
    rw [Load_eq]
    simp only [LoadFile, ReadFile, h]
    rw [Load_eq]
    rcases hu : (UnmarshalStrict parse s Config.zero).2 with _ | e <;> simp

/-- C8, witness: a missing path gives the read error, the path of the example file gives
what Load gives on its content. -/
theorem LoadFile_read_then_Load_witness :
    LoadFile exampleParse exampleFS "nope.yml"
        = (none, some (.read "open nope.yml: no such file or directory")) ∧
      LoadFile exampleParse exampleFS "config.yml"
        = Load exampleParse "topic: golang\noutput_file: OUT.md\n" :=
  ⟨((LoadFile_read_then_Load exampleParse exampleFS "nope.yml").1 _ (by rfl)).1,
   (LoadFile_read_then_Load exampleParse exampleFS "config.yml").2 _ (by rfl)⟩

/-! ## C9: String -/

/-- C9: String is total: for every Config it is the text of the serializer when the
serializer succeeds, and the placeholder that embeds the error message when it fails. -/
theorem String_never_fails (marshal : Marshaler) (c : Config) :
    (∀ b, marshal c = .ok b → c.String marshal = b) ∧
    (∀ e, marshal c = .error e →
      c.String marshal = "<error creating config string: " ++ e ++ ">") := by
  constructor
  · intro b h
    simp [Config.String, h]
  · intro e h
    simp [Config.String, h]

/-- C9, witness: both branches of String on the example serializer. -/
theorem String_never_fails_witness :
    exampleConfig.String exampleMarshal = exampleText ∧
      DefaultConfig.String exampleMarshal
        = "<error creating config string: " ++ "not an example value" ++ ">" :=
  ⟨(String_never_fails exampleMarshal exampleConfig).1 _ (by rfl),
   (String_never_fails exampleMarshal DefaultConfig).2 _ (by rfl)⟩

/-! ## C10: no partial result -/

/-- C10: Load returns a Config or an error and never both or neither; whenever
`yaml.UnmarshalStrict` ends with an error, Load returns that error and no Config, whatever
the decoder had already written into the target. -/
theorem Load_config_or_error (parse : Parser) (s : String) :
    (((Load parse s).1 = none ∧ (Load parse s).2 ≠ none) ∨
      ((Load parse s).1 ≠ none ∧ (Load parse s).2 = none)) ∧
    (∀ cfg err, UnmarshalStrict parse s Config.zero = (cfg, some err) →
      Load parse s = (none, some err)) := by
  constructor
  · rw [Load_eq]
    rcases hu : (UnmarshalStrict parse s Config.zero).2 with _ | e <;> simp
  · intro cfg err h
    rw [Load_eq, h]

/-- C10, witness: on the text with the unknown key the decoder has already set Topic when
it meets `bogus_field`, and Load returns the error alone. -/
theorem Load_config_or_error_witness :
    UnmarshalStrict exampleParse "topic: go\nbogus_field: 1\n" Config.zero
        = ({ DefaultConfig with Topic := "go" },
            some (.yamlType [.notFound "bogus_field" "main.plain"])) ∧
      Load exampleParse "topic: go\nbogus_field: 1\n"
        = (none, some (.yamlType [.notFound "bogus_field" "main.plain"])) :=
  ⟨by rfl, (Load_config_or_error exampleParse "topic: go\nbogus_field: 1\n").2 _ _ (by rfl)⟩

/-! ## The struct loop -/

/-- A scalar decodes into a string exactly when it writes that string. -/
theorem unmarshalString_value_iff (n : Node) (s : String) :
    unmarshalString n = .value s ↔ writtenString n = some s := by
  cases n with
  | scalar kind text =>
    cases kind with
    | binary data => cases data <;> simp [unmarshalString, writtenString]
    | _ => simp [unmarshalString, writtenString]
  | sequence cs => simp [unmarshalString, writtenString]
  | mapping ps => simp [unmarshalString, writtenString]

/-- The loop on the empty list of pairs. -/
theorem structLoop_nil {α φ : Type} [DecidableEq φ] (fieldOf : String → Option φ)
    (typeName : String) (setField : α → φ → Node → Decoded α) (st : StructState α φ) :
    structLoop fieldOf typeName setField [] st = .ok st := by
  rw [structLoop]

/-- The loop on a pair whose key is a merge key. -/
theorem structLoop_merge {α φ : Type} [DecidableEq φ] (fieldOf : String → Option φ)
    (typeName : String) (setField : α → φ → Node → Decoded α) (kv : Node × Node)
    (rest : List (Node × Node)) (st : StructState α φ) (h : kv.1.isMerge = true) :
    structLoop fieldOf typeName setField (kv :: rest) st =
      match mergeInto fieldOf typeName setField kv.2 st.out with
      | .error msg => .error msg
      | .ok r =>
        structLoop fieldOf typeName setField rest
          { st with out := r.1, terrors := st.terrors ++ r.2 } := by
  rcases kv with ⟨k, v⟩
  rw [structLoop]
  simp only at h
  simp only [h, if_true]

/-- The loop on a pair whose key is not a merge key. -/
theorem structLoop_pair {α φ : Type} [DecidableEq φ] (fieldOf : String → Option φ)
    (typeName : String) (setField : α → φ → Node → Decoded α) (kv : Node × Node)
    (rest : List (Node × Node)) (st : StructState α φ) (h : kv.1.isMerge = false) :
    structLoop fieldOf typeName setField (kv :: rest) st =
      match structPair fieldOf typeName setField st kv with
      | .error msg => .error msg
      | .ok st2 => structLoop fieldOf typeName setField rest st2 := by
  rcases kv with ⟨k, v⟩
  rw [structLoop]
  simp only at h
  simp only [h, Bool.false_eq_true, if_false]

/-- The shapes of a step of the loop that does not abort: it only records an issue (the
key names no field, or a field already set), or it decodes the value into a field not
yet set. -/
theorem structPair_cases {α φ : Type} [DecidableEq φ] (fieldOf : String → Option φ)
    (typeName : String) (setField : α → φ → Node → Decoded α)
    (st st2 : StructState α φ) (kv : Node × Node)
    (h : structPair fieldOf typeName setField st kv = .ok st2) :
    ((keyField fieldOf kv = none ∨ ∃ f, keyField fieldOf kv = some f ∧ f ∈ st.done) ∧
      ∃ e, st2 = { st with terrors := st.terrors ++ [e] }) ∨
    (∃ f r, keyField fieldOf kv = some f ∧ f ∉ st.done ∧ setField st.out f kv.2 = .ok r ∧
      st2 = { out := r.1, done := f :: st.done, terrors := st.terrors ++ r.2 }) := by
  unfold structPair at h
  unfold keyField
  cases hk : unmarshalString kv.1 with
  | abort msg => rw [hk] at h; simp at h
  | issue e =>
    rw [hk] at h
    simp only [Except.ok.injEq] at h
    exact Or.inl ⟨Or.inl rfl, e, h.symm⟩
  | value name =>
    rw [hk] at h
    simp only at h ⊢
    cases hf : fieldOf name with
    | none =>
      rw [hf] at h
      simp only [Except.ok.injEq] at h
      exact Or.inl ⟨Or.inl rfl, _, h.symm⟩
    | some f =>
      rw [hf] at h
      simp only at h
      by_cases hd : f ∈ st.done
      · simp only [hd, if_true, Except.ok.injEq] at h
        exact Or.inl ⟨Or.inr ⟨f, rfl, hd⟩, _, h.symm⟩
      · simp only [hd, if_false] at h
        cases hs : setField st.out f kv.2 with
        | error msg => rw [hs] at h; simp at h
        | ok r =>
          rw [hs] at h
          simp only [Except.ok.injEq] at h
          exact Or.inr ⟨f, r, rfl, hd, hs, h.symm⟩

/-- A step of the loop that does not abort keeps the issues recorded before it. -/
theorem structPair_terrors {α φ : Type} [DecidableEq φ] (fieldOf : String → Option φ)
    (typeName : String) (setField : α → φ → Node → Decoded α)
    (st st2 : StructState α φ) (kv : Node × Node)
    (h : structPair fieldOf typeName setField st kv = .ok st2) :
    ∃ extra, st2.terrors = st.terrors ++ extra := by
  rcases structPair_cases fieldOf typeName setField st st2 kv h with
    ⟨_, e, rfl⟩ | ⟨f, r, _, _, _, rfl⟩
  · exact ⟨[e], rfl⟩
  · exact ⟨r.2, rfl⟩

/-- A loop that does not abort keeps the issues recorded before it, merge keys or not. -/
theorem structLoop_terrors {α φ : Type} [DecidableEq φ] (fieldOf : String → Option φ)
    (typeName : String) (setField : α → φ → Node → Decoded α) :
    ∀ (pairs : List (Node × Node)) (st st2 : StructState α φ),
      structLoop fieldOf typeName setField pairs st = .ok st2 →
      ∃ extra, st2.terrors = st.terrors ++ extra := by
  intro pairs
  induction pairs with
  | nil =>
    intro st st2 h
    rw [structLoop_nil] at h
    simp only [Except.ok.injEq] at h
    exact ⟨[], by simp [h]⟩
  | cons kv rest ih =>
    intro st st2 h
    cases hm : kv.1.isMerge with
    | true =>
      rw [structLoop_merge _ _ _ kv rest st hm] at h
      cases hr : mergeInto fieldOf typeName setField kv.2 st.out with
      | error msg => rw [hr] at h; simp at h
      | ok r =>
        rw [hr] at h
        obtain ⟨extra, he⟩ := ih _ _ h
        exact ⟨r.2 ++ extra, by simp [he]⟩
    | false =>
      rw [structLoop_pair _ _ _ kv rest st hm] at h
      cases hr : structPair fieldOf typeName setField st kv with
      | error msg => rw [hr] at h; simp at h
      | ok st1 =>
        rw [hr] at h
        obtain ⟨x, hx⟩ := structPair_terrors _ _ _ st st1 kv hr
        obtain ⟨extra, he⟩ := ih _ _ h
        exact ⟨x ++ extra, by simp [he, hx]⟩

/-- A loop that ends without an issue started without one. -/
theorem structLoop_terrors_nil {α φ : Type} [DecidableEq φ] (fieldOf : String → Option φ)
    (typeName : String) (setField : α → φ → Node → Decoded α)
    (pairs : List (Node × Node)) (st st2 : StructState α φ)
    (h : structLoop fieldOf typeName setField pairs st = .ok st2) (hn : st2.terrors = []) :
    st.terrors = [] := by
  obtain ⟨extra, he⟩ := structLoop_terrors _ _ _ pairs st st2 h
  rw [he] at hn
  exact (List.append_eq_nil.mp hn).1

/-- A loop over pairs one of which is marked, where a step on a marked pair records an
issue whenever it does not abort, ends with an issue whenever it does not abort. -/
theorem structLoop_reaches {α φ : Type} [DecidableEq φ] (fieldOf : String → Option φ)
    (typeName : String) (setField : α → φ → Node → Decoded α) (bad : Node × Node → Prop)
    (hbad : ∀ st st2 kv, bad kv →
      structPair fieldOf typeName setField st kv = .ok st2 → st2.terrors ≠ []) :
    ∀ (pairs : List (Node × Node)) (st st2 : StructState α φ),
      (∃ kv ∈ pairs, kv.1.isMerge = false ∧ bad kv) →
      structLoop fieldOf typeName setField pairs st = .ok st2 → st2.terrors ≠ [] := by
  intro pairs
  induction pairs with
  | nil => intro st st2 h; simp at h
  | cons kv rest ih =>
    intro st st2 hex h hnil
    rcases hex with ⟨kv2, hmem, hnm, hb⟩
    rcases List.mem_cons.mp hmem with rfl | hmem2
    · rw [structLoop_pair _ _ _ kv2 rest st hnm] at h
      cases hr : structPair fieldOf typeName setField st kv2 with
      | error msg => rw [hr] at h; simp at h
      | ok st1 =>
        rw [hr] at h
        exact hbad st st1 kv2 hb hr (structLoop_terrors_nil _ _ _ rest st1 st2 h hnil)
    · cases hm : kv.1.isMerge with
      | true =>
        rw [structLoop_merge _ _ _ kv rest st hm] at h
        cases hr : mergeInto fieldOf typeName setField kv.2 st.out with
        | error msg => rw [hr] at h; simp at h
        | ok r =>
          rw [hr] at h
          exact ih _ _ ⟨kv2, hmem2, hnm, hb⟩ h hnil
      | false =>
        rw [structLoop_pair _ _ _ kv rest st hm] at h
        cases hr : structPair fieldOf typeName setField st kv with
        | error msg => rw [hr] at h; simp at h
        | ok st1 =>
          rw [hr] at h
          exact ih _ _ ⟨kv2, hmem2, hnm, hb⟩ h hnil

/-- A step on a pair whose key is none of `names` records an issue whenever it does not
abort, when the key table knows no name outside `names`. -/
theorem structPair_unknown {α φ : Type} [DecidableEq φ] (fieldOf : String → Option φ)
    (typeName : String) (setField : α → φ → Node → Decoded α) (names : List String)
    (hnames : ∀ name, name ∉ names → fieldOf name = none)
    (st st2 : StructState α φ) (kv : Node × Node) (hu : unknownKey names kv = true)
    (h : structPair fieldOf typeName setField st kv = .ok st2) : st2.terrors ≠ [] := by
  rcases structPair_cases fieldOf typeName setField st st2 kv h with
    ⟨_, e, rfl⟩ | ⟨f, r, hk, _, _, rfl⟩
  · simp
  · exfalso
    unfold keyField at hk
    cases hv : unmarshalString kv.1 with
    | abort msg => rw [hv] at hk; simp at hk
    | issue e => rw [hv] at hk; simp at hk
    | value name =>
      rw [hv] at hk
      simp only at hk
      have hw := (unmarshalString_value_iff kv.1 name).mp hv
      simp only [unknownKey, hw, Bool.and_eq_true, Bool.not_eq_true', List.contains_eq_any_beq,
        List.any_eq_false, beq_iff_eq] at hu
      have hnot : name ∉ names := fun hmem => hu.2 name hmem rfl
      rw [hnames name hnot] at hk
      simp at hk

/-! ## C1: strict decoding -/

/-- The key table of `Config` knows no name outside the recognized keys. -/
theorem configFieldOf_none (name : String) (h : name ∉ recognizedKeys) :
    configFieldOf name = none := by
  simp only [recognizedKeys, List.mem_cons, List.mem_singleton, not_or, List.mem_nil_iff,
    or_false] at h
  simp [configFieldOf, h]

/-- The key table of `Auth` knows no name outside the recognized keys of `auth`. -/
theorem authFieldOf_none (name : String) (h : name ∉ recognizedAuthKeys) :
    authFieldOf name = none := by
  simp only [recognizedAuthKeys, List.mem_cons, List.mem_singleton, not_or, List.mem_nil_iff,
    or_false] at h
  simp [authFieldOf, h]

/-- A mapping with an unknown key decoded into an `Auth` records an issue whenever the
decoder does not abort. -/
theorem unmarshalAuth_unknown (pairs : List (Node × Node)) (out : Auth) (r : Auth × List TypeIssue)
    (hu : pairs.any (unknownKey recognizedAuthKeys) = true)
    (h : unmarshalAuth (.mapping pairs) out = .ok r) : r.2 ≠ [] := by
  simp only [unmarshalAuth, mappingStructAuth, mappingStruct] at h
  cases hl : structLoop authFieldOf "main.Auth" authField pairs ⟨out, [], []⟩ with
  | error msg => rw [hl] at h; simp at h
  | ok st =>
    rw [hl] at h
    simp only [Except.ok.injEq] at h
    rw [← h]
    refine structLoop_reaches authFieldOf "main.Auth" authField
      (fun kv => unknownKey recognizedAuthKeys kv = true)
      (fun st1 st2 kv hb hs => structPair_unknown _ _ _ recognizedAuthKeys authFieldOf_none
        st1 st2 kv hb hs) pairs _ st ?_ hl
    obtain ⟨kv, hm, hkv⟩ := List.any_eq_true.mp hu
    refine ⟨kv, hm, ?_, hkv⟩
    simp only [unknownKey, Bool.and_eq_true, Bool.not_eq_true'] at hkv
    exact hkv.1

/-- A step of the top-level loop on an unknown key, or on an `auth` mapping with an
unknown key, records an issue whenever it does not abort. -/
theorem plainPair_unknown (st st2 : StructState Config ConfigField) (kv : Node × Node)
    (hu : (unknownKey recognizedKeys kv || authWithUnknownKey kv) = true)
    (h : structPair configFieldOf "main.plain" plainField st kv = .ok st2) :
    st2.terrors ≠ [] := by
  rcases Bool.or_eq_true _ _ ▸ hu with hu1 | hu2
  · exact structPair_unknown _ _ _ recognizedKeys configFieldOf_none st st2 kv hu1 h
  · rcases structPair_cases configFieldOf "main.plain" plainField st st2 kv h with
      ⟨_, e, rfl⟩ | ⟨f, r, hk, _, hs, rfl⟩
    · simp
    · rcases kv with ⟨k, v⟩
      simp only [authWithUnknownKey, Bool.and_eq_true, Bool.not_eq_true'] at hu2
      cases hw : writtenString k with
      | none => rw [hw] at hu2; simp at hu2
      | some name =>
        rw [hw] at hu2
        cases v with
        | scalar kind text => simp at hu2
        | sequence cs => simp at hu2
        | mapping aps =>
          simp only [Bool.and_eq_true, beq_iff_eq] at hu2
          obtain ⟨_, rfl, hany⟩ := hu2
          have hv := (unmarshalString_value_iff k "auth").mpr hw
          simp only [keyField, hv] at hk
          obtain rfl : ConfigField.auth = f := by simpa [configFieldOf] using hk
          simp only [plainField] at hs
          cases ha : unmarshalAuth (.mapping aps) st.out.Auth with
          | error msg => rw [ha] at hs; simp at hs
          | ok ra =>
            rw [ha] at hs
            simp only [Except.ok.injEq] at hs
            have := unmarshalAuth_unknown aps st.out.Auth ra hany ha
            rw [← hs]
            simp [this]

/-- A document with an unknown key decoded into a `plain` records an issue whenever the
decoder does not abort. -/
theorem unmarshalPlain_unknown (n : Node) (out : Config) (r : Config × List TypeIssue)
    (hu : hasUnknownKey n = true) (h : unmarshalPlain n out = .ok r) : r.2 ≠ [] := by
  cases n with
  | scalar kind text => simp [hasUnknownKey] at hu
  | sequence cs => simp [hasUnknownKey] at hu
  | mapping pairs =>
    simp only [unmarshalPlain, mappingStructPlain, mappingStruct] at h
    cases hl : structLoop configFieldOf "main.plain" plainField pairs ⟨out, [], []⟩ with
    | error msg => rw [hl] at h; simp at h
    | ok st =>
      rw [hl] at h
      simp only [Except.ok.injEq] at h
      rw [← h]
      refine structLoop_reaches configFieldOf "main.plain" plainField
        (fun kv => (unknownKey recognizedKeys kv || authWithUnknownKey kv) = true)
        (fun st1 st2 kv hb hs => plainPair_unknown st1 st2 kv hb hs) pairs _ st ?_ hl
      simp only [hasUnknownKey] at hu
      obtain ⟨kv, hm, hkv⟩ := List.any_eq_true.mp hu
      refine ⟨kv, hm, ?_, hkv⟩
      rcases Bool.or_eq_true _ _ ▸ hkv with h1 | h1
      · simp only [unknownKey, Bool.and_eq_true, Bool.not_eq_true'] at h1
        exact h1.1
      · simp only [authWithUnknownKey, Bool.and_eq_true, Bool.not_eq_true'] at h1
        exact h1.1

/-- C1, counterexample: the merge key `<<` is a mapping key that is not a recognized
field name, and Load accepts the text and reads the merged mapping. -/
theorem Load_accepts_merge_key :
    exampleParse "<<: \x7btopic: x\x7d\n"
        = .ok (some (.mapping [(.scalar .merge "<<", .mapping [(.str "topic", .str "x")])])) ∧
      writtenString (.scalar .merge "<<") = some "<<" ∧
      recognizedKeys.contains "<<" = false ∧
      Load exampleParse "<<: \x7btopic: x\x7d\n"
        = (some ⟨⟨"", "", "", ""⟩, "", "x", [], "README.md"⟩, none) :=
  ⟨by rfl, by rfl, by decide, by rfl⟩

/-- C1 (amended): strict decoding.  When the first document of the text s has a mapping
key, other than a merge key `<<`, that is not a recognized key (`otp` being a recognized
key of `auth`), at the top level or inside the `auth` mapping, Load returns an error and
no Config. -/
theorem Load_rejects_unknown_key (parse : Parser) (s : String) (n : Node)
    (hp : parse s = .ok (some n)) (hk : hasUnknownKey n = true) :
    ∃ err, Load parse s = (none, some err) := by
  have hn : n.isNull = false := by
    cases n with
    | scalar kind text => simp [hasUnknownKey] at hk
    | sequence cs => rfl
    | mapping pairs => rfl
  rw [Load_of_root parse s n hp hn]
  cases h : unmarshalPlain n DefaultConfig with
  | error msg => exact ⟨_, rfl⟩
  | ok r =>
    have hi := unmarshalPlain_unknown n DefaultConfig r hk h
    exact ⟨.yamlType r.2, by simp [hi]⟩

/-- C1 (amended), witness: scenario C, the text with the key `bogus_field`. -/
theorem Load_rejects_unknown_key_witness :
    ∃ err, Load exampleParse "topic: go\nbogus_field: 1\n" = (none, some err) :=
  Load_rejects_unknown_key exampleParse "topic: go\nbogus_field: 1\n" _ (by rfl) (by decide)

/-! ## The struct loop without merge keys, field by field -/

/-- A step of a loop that does not abort, on a pair whose key is not a merge key. -/
theorem structLoop_step {α φ : Type} [DecidableEq φ] (fieldOf : String → Option φ)
    (typeName : String) (setField : α → φ → Node → Decoded α) (kv : Node × Node)
    (rest : List (Node × Node)) (st st2 : StructState α φ) (hm : kv.1.isMerge = false)
    (h : structLoop fieldOf typeName setField (kv :: rest) st = .ok st2) :
    ∃ st1, structPair fieldOf typeName setField st kv = .ok st1 ∧
      structLoop fieldOf typeName setField rest st1 = .ok st2 := by
  rw [structLoop_pair _ _ _ kv rest st hm] at h
  cases hr : structPair fieldOf typeName setField st kv with
  | error msg => rw [hr] at h; simp at h
  | ok st1 => rw [hr] at h; exact ⟨st1, rfl, h⟩

/-- Without merge keys, a field already set keeps its value to the end of the loop. -/
theorem structLoop_done {α φ β : Type} [DecidableEq φ] (fieldOf : String → Option φ)
    (typeName : String) (setField : α → φ → Node → Decoded α) (get : α → φ → β)
    (hother : ∀ c g v f r, f ≠ g → setField c g v = .ok r → get r.1 f = get c f) (f : φ) :
    ∀ (pairs : List (Node × Node)) (st st2 : StructState α φ),
      (∀ kv ∈ pairs, kv.1.isMerge = false) →
      structLoop fieldOf typeName setField pairs st = .ok st2 → f ∈ st.done →
      get st2.out f = get st.out f ∧ f ∈ st2.done := by
  intro pairs
  induction pairs with
  | nil =>
    intro st st2 _ h hd
    rw [structLoop_nil] at h
    simp only [Except.ok.injEq] at h
    rw [← h]
    exact ⟨rfl, hd⟩
  | cons kv rest ih =>
    intro st st2 hmf h hd
    obtain ⟨st1, hs, hl⟩ := structLoop_step _ _ _ kv rest st st2
      (hmf kv (List.mem_cons_self _ _)) h
    have hmf2 : ∀ kv2 ∈ rest, kv2.1.isMerge = false :=
      fun kv2 hm => hmf kv2 (List.mem_cons_of_mem _ hm)
    rcases structPair_cases fieldOf typeName setField st st1 kv hs with
      ⟨_, e, rfl⟩ | ⟨g, r, _, hg, hset, rfl⟩
    · exact ih ⟨st.out, st.done, st.terrors ++ [e]⟩ st2 hmf2 hl hd
    · have hfg : f ≠ g := fun hEq => hg (hEq ▸ hd)
      have := ih _ _ hmf2 hl (List.mem_cons_of_mem _ hd)
      exact ⟨by rw [this.1]; exact hother _ _ _ _ _ hfg hset, this.2⟩

/-- Without merge keys, a field that no key of the mapping names keeps its value
to the end of the loop. -/
theorem structLoop_absent {α φ β : Type} [DecidableEq φ] (fieldOf : String → Option φ)
    (typeName : String) (setField : α → φ → Node → Decoded α) (get : α → φ → β)
    (hother : ∀ c g v f r, f ≠ g → setField c g v = .ok r → get r.1 f = get c f) (f : φ) :
    ∀ (pairs : List (Node × Node)) (st st2 : StructState α φ),
      (∀ kv ∈ pairs, kv.1.isMerge = false) →
      structLoop fieldOf typeName setField pairs st = .ok st2 →
      (∀ kv ∈ pairs, keyField fieldOf kv ≠ some f) → get st2.out f = get st.out f := by
  intro pairs
  induction pairs with
  | nil =>
    intro st st2 _ h _
    rw [structLoop_nil] at h
    simp only [Except.ok.injEq] at h
    rw [← h]
  | cons kv rest ih =>
    intro st st2 hmf h hab
    obtain ⟨st1, hs, hl⟩ := structLoop_step _ _ _ kv rest st st2
      (hmf kv (List.mem_cons_self _ _)) h
    have hmf2 : ∀ kv2 ∈ rest, kv2.1.isMerge = false :=
      fun kv2 hm => hmf kv2 (List.mem_cons_of_mem _ hm)
    have hab2 : ∀ kv2 ∈ rest, keyField fieldOf kv2 ≠ some f :=
      fun kv2 hm => hab kv2 (List.mem_cons_of_mem _ hm)
    rcases structPair_cases fieldOf typeName setField st st1 kv hs with
      ⟨_, e, rfl⟩ | ⟨g, r, hk, _, hset, rfl⟩
    · exact ih ⟨st.out, st.done, st.terrors ++ [e]⟩ st2 hmf2 hl hab2
    · rw [ih _ _ hmf2 hl hab2]
      have hfg : f ≠ g := fun hEq => hab kv (List.mem_cons_self _ _) (hEq ▸ hk)
      exact hother _ _ _ _ _ hfg hset

/-- Without merge keys, a key that names a field already set makes the loop end with an
issue. -/
theorem structLoop_dup {α φ : Type} [DecidableEq φ] (fieldOf : String → Option φ)
    (typeName : String) (setField : α → φ → Node → Decoded α) (f : φ) :
    ∀ (pairs : List (Node × Node)) (st st2 : StructState α φ),
      (∀ kv ∈ pairs, kv.1.isMerge = false) →
      structLoop fieldOf typeName setField pairs st = .ok st2 → f ∈ st.done →
      (∃ kv ∈ pairs, keyField fieldOf kv = some f) → st2.terrors ≠ [] := by
  intro pairs
  induction pairs with
  | nil => intro st st2 _ _ _ h; simp at h
  | cons kv rest ih =>
    intro st st2 hmf h hd hex hnil
    obtain ⟨st1, hs, hl⟩ := structLoop_step _ _ _ kv rest st st2
      (hmf kv (List.mem_cons_self _ _)) h
    have hmf2 : ∀ kv2 ∈ rest, kv2.1.isMerge = false :=
      fun kv2 hm => hmf kv2 (List.mem_cons_of_mem _ hm)
    have h1 := structLoop_terrors_nil _ _ _ rest st1 st2 hl hnil
    rcases hex with ⟨kv2, hm, hk⟩
    rcases structPair_cases fieldOf typeName setField st st1 kv hs with
      ⟨_, e, rfl⟩ | ⟨g, r, hkg, hg, hset, rfl⟩
    · simp at h1
    · rcases List.mem_cons.mp hm with rfl | hm2
      · rw [hk] at hkg
        exact hg ((Option.some.inj hkg) ▸ hd)
      · exact ih _ _ hmf2 hl (List.mem_cons_of_mem _ hd) ⟨kv2, hm2, hk⟩ hnil

/-- Without merge keys, in a loop that ends without an issue every pair names a field,
its value decodes without an issue from a target that holds the initial value of that
field, and the field ends with the decoded value. -/
theorem structLoop_present {α φ β : Type} [DecidableEq φ] (fieldOf : String → Option φ)
    (typeName : String) (setField : α → φ → Node → Decoded α) (get : α → φ → β)
    (hother : ∀ c g v f r, f ≠ g → setField c g v = .ok r → get r.1 f = get c f) :
    ∀ (pairs : List (Node × Node)) (st st2 : StructState α φ),
      (∀ kv ∈ pairs, kv.1.isMerge = false) →
      structLoop fieldOf typeName setField pairs st = .ok st2 → st2.terrors = [] →
      ∀ kv ∈ pairs, ∃ f c r, keyField fieldOf kv = some f ∧ get c f = get st.out f ∧
        setField c f kv.2 = .ok r ∧ r.2 = [] ∧ get st2.out f = get r.1 f := by
  intro pairs
  induction pairs with
  | nil => intro st st2 _ _ _ kv hm; simp at hm
  | cons kv0 rest ih =>
    intro st st2 hmf h hnil kv hm
    obtain ⟨st1, hs, hl⟩ := structLoop_step _ _ _ kv0 rest st st2
      (hmf kv0 (List.mem_cons_self _ _)) h
    have hmf2 : ∀ kv2 ∈ rest, kv2.1.isMerge = false :=
      fun kv2 hm => hmf kv2 (List.mem_cons_of_mem _ hm)
    have h1 := structLoop_terrors_nil _ _ _ rest st1 st2 hl hnil
    rcases structPair_cases fieldOf typeName setField st st1 kv0 hs with
      ⟨_, e, rfl⟩ | ⟨g, r, hk, hg, hset, rfl⟩
    · simp at h1
    · have hr2 : r.2 = [] := (List.append_eq_nil.mp h1).2
      rcases List.mem_cons.mp hm with rfl | hm2
      · refine ⟨g, st.out, r, hk, rfl, hset, hr2, ?_⟩
        exact (structLoop_done fieldOf typeName setField get hother g rest _ st2 hmf2 hl
          (List.mem_cons_self _ _)).1
      · obtain ⟨f, c, r3, hkf, hc, hs3, hr3, hfin⟩ := ih _ _ hmf2 hl hnil kv hm2
        refine ⟨f, c, r3, hkf, ?_, hs3, hr3, hfin⟩
        rw [hc]
        by_cases hfg : f = g
        · exfalso
          refine structLoop_dup fieldOf typeName setField f rest _ st2 hmf2 hl ?_
            ⟨kv, hm2, hkf⟩ hnil
          rw [hfg]
          exact List.mem_cons_self _ _
        · exact hother _ _ _ _ _ hfg hset

/-- Without merge keys, a loop over pairs that name pairwise different fields, none of
them set before, with values that decode without an issue, ends without an issue. -/
theorem structLoop_ok {α φ : Type} [DecidableEq φ] (fieldOf : String → Option φ)
    (typeName : String) (setField : α → φ → Node → Decoded α) :
    ∀ (pairs : List (Node × Node)) (st : StructState α φ), st.terrors = [] →
      (∀ kv ∈ pairs, kv.1.isMerge = false ∧ ∃ f, keyField fieldOf kv = some f ∧ f ∉ st.done ∧
        ∀ c, ∃ c2, setField c f kv.2 = .ok (c2, [])) →
      (pairs.map (keyField fieldOf)).Nodup →
      ∃ st2, structLoop fieldOf typeName setField pairs st = .ok st2 ∧ st2.terrors = [] := by
  intro pairs
  induction pairs with
  | nil => intro st h _ _; exact ⟨st, structLoop_nil _ _ _ st, h⟩
  | cons kv0 rest ih =>
    intro st h hall hnd
    obtain ⟨hm0, f, hk, hd, hset⟩ := hall kv0 (List.mem_cons_self _ _)
    obtain ⟨c2, hc2⟩ := hset st.out
    have hstep : structPair fieldOf typeName setField st kv0
        = .ok { out := c2, done := f :: st.done, terrors := st.terrors } := by
      unfold keyField at hk
      unfold structPair
      cases hv : unmarshalString kv0.1 with
      | abort msg => rw [hv] at hk; simp at hk
      | issue e => rw [hv] at hk; simp at hk
      | value name =>
        rw [hv] at hk
        simp only at hk
        simp [hk, hd, hc2]
    rw [structLoop_pair _ _ _ kv0 rest st hm0, hstep]
    rw [List.map_cons, List.nodup_cons] at hnd
    apply ih
    · exact h
    · intro kv hm
      obtain ⟨hm2, f2, hk2, hd2, hset2⟩ := hall kv (List.mem_cons_of_mem _ hm)
      refine ⟨hm2, f2, hk2, ?_, hset2⟩
      intro hmem
      rcases List.mem_cons.mp hmem with hEq | hmem2
      · apply hnd.1
        rw [hk, ← hEq, ← hk2]
        exact List.mem_map_of_mem _ hm
      · exact hd2 hmem2
    · exact hnd.2

/-- Decoding a value into a field of `Auth` leaves the other fields alone. -/
theorem authField_other (a : Auth) (g : AuthField) (v : Node) (f : AuthField)
    (r : Auth × List TypeIssue) (h : f ≠ g) (hs : authField a g v = .ok r) :
    r.1.get f = a.get f := by
  unfold authField at hs
  cases hv : unmarshalString v with
  | abort msg => rw [hv] at hs; simp at hs
  | issue e =>
    rw [hv] at hs
    simp only [Except.ok.injEq] at hs
    rw [← hs]
  | value s =>
    rw [hv] at hs
    simp only [Except.ok.injEq] at hs
    rw [← hs]
    cases f <;> cases g <;> first | rfl | exact absurd rfl h

/-- Decoding a value into a field of `plain` leaves the other fields alone. -/
theorem plainField_other (c : Config) (g : ConfigField) (v : Node) (f : ConfigField)
    (r : Config × List TypeIssue) (h : f ≠ g) (hs : plainField c g v = .ok r) :
    r.1.get f = c.get f := by
  cases g with
  | auth =>
    simp only [plainField] at hs
    cases ha : unmarshalAuth v c.Auth with
    | error msg => rw [ha] at hs; simp at hs
    | ok ra =>
      rw [ha] at hs
      simp only [Except.ok.injEq] at hs
      rw [← hs]
      cases f <;> first | rfl | exact absurd rfl h
  | subTopics =>
    simp only [plainField] at hs
    cases ha : unmarshalStrings v c.SubTopics with
    | error msg => rw [ha] at hs; simp at hs
    | ok ra =>
      rw [ha] at hs
      simp only [Except.ok.injEq] at hs
      rw [← hs]
      cases f <;> first | rfl | exact absurd rfl h
  | format =>
    simp only [plainField] at hs
    cases hv : unmarshalString v with
    | abort msg => rw [hv] at hs; simp at hs
    | issue e => rw [hv] at hs; simp only [Except.ok.injEq] at hs; rw [← hs]
    | value s =>
      rw [hv] at hs
      simp only [Except.ok.injEq] at hs
      rw [← hs]
      cases f <;> first | rfl | exact absurd rfl h
  | topic =>
    simp only [plainField] at hs
    cases hv : unmarshalString v with
    | abort msg => rw [hv] at hs; simp at hs
    | issue e => rw [hv] at hs; simp only [Except.ok.injEq] at hs; rw [← hs]
    | value s =>
      rw [hv] at hs
      simp only [Except.ok.injEq] at hs
      rw [← hs]
      cases f <;> first | rfl | exact absurd rfl h
  | outputFile =>
    simp only [plainField] at hs
    cases hv : unmarshalString v with
    | abort msg => rw [hv] at hs; simp at hs
    | issue e => rw [hv] at hs; simp only [Except.ok.injEq] at hs; rw [← hs]
    | value s =>
      rw [hv] at hs
      simp only [Except.ok.injEq] at hs
      rw [← hs]
      cases f <;> first | rfl | exact absurd rfl h

/-! ## C4: overlay of the present keys -/

/-- A mapping without merge keys, as a statement about each of its pairs. -/
theorem mergeFree_iff (pairs : List (Node × Node)) :
    mergeFree pairs = true ↔ ∀ kv ∈ pairs, kv.1.isMerge = false := by
  simp [mergeFree]

/-- A field of `Auth` read back after it was assigned. -/
theorem Auth.get_set (a : Auth) (g : AuthField) (v : String) : (a.set g v).get g = v := by
  cases g <;> rfl

/-- The field that a key names, when the key writes a string. -/
theorem keyField_of_written {φ : Type} (fieldOf : String → Option φ) (k v : Node)
    (name : String) (hk : writtenString k = some name) :
    keyField fieldOf (k, v) = fieldOf name := by
  simp [keyField, (unmarshalString_value_iff k name).mpr hk]

/-- A sequence decoded into a `[]string` without an issue gives the strings that its
elements write, in the order of the sequence. -/
theorem sequenceStrings_ok : ∀ (items : List Node) (r : List String × List TypeIssue),
    sequenceStrings items = .ok r → r.2 = [] → items.map writtenString = r.1.map some := by
  intro items
  induction items with
  | nil =>
    intro r h _
    simp only [sequenceStrings, Except.ok.injEq] at h
    rw [← h]
    rfl
  | cons n rest ih =>
    intro r h hr
    unfold sequenceStrings at h
    cases hn : unmarshalString n with
    | abort msg => rw [hn] at h; simp at h
    | issue e =>
      rw [hn] at h
      cases hrest : sequenceStrings rest with
      | error msg => rw [hrest] at h; simp at h
      | ok r2 =>
        rw [hrest] at h
        simp only [Except.ok.injEq] at h
        rw [← h] at hr
        simp at hr
    | value x =>
      rw [hn] at h
      cases hrest : sequenceStrings rest with
      | error msg => rw [hrest] at h; simp at h
      | ok r2 =>
        rw [hrest] at h
        simp only [Except.ok.injEq] at h
        rw [← h] at hr ⊢
        simp only [List.map_cons]
        rw [ih r2 hrest hr, (unmarshalString_value_iff n x).mp hn]

/-- A value decoded into a field of `Auth` without an issue is a scalar, and the field
then holds the string that the scalar writes. -/
theorem authField_ok (a : Auth) (g : AuthField) (v : Node) (r : Auth × List TypeIssue)
    (hs : authField a g v = .ok r) (hr : r.2 = []) : writtenString v = some (r.1.get g) := by
  unfold authField at hs
  cases hv : unmarshalString v with
  | abort msg => rw [hv] at hs; simp at hs
  | issue e =>
    rw [hv] at hs
    simp only [Except.ok.injEq] at hs
    rw [← hs] at hr
    simp at hr
  | value x =>
    rw [hv] at hs
    simp only [Except.ok.injEq] at hs
    rw [← hs, Auth.get_set]
    exact (unmarshalString_value_iff v x).mp hv

/-- In an `auth` mapping without merge keys that is decoded without an issue, every key
names a field of `Auth`, and that field ends with the string that the value of the key
writes. -/
theorem mappingStructAuth_present (aps : List (Node × Node)) (a0 : Auth)
    (r : Auth × List TypeIssue) (hmf : mergeFree aps = true)
    (h : mappingStructAuth aps a0 = .ok r) (hr : r.2 = []) (k v : Node)
    (hm : (k, v) ∈ aps) (name : String) (hk : writtenString k = some name) :
    ∃ g, authFieldOf name = some g ∧ writtenString v = some (r.1.get g) := by
  simp only [mappingStructAuth, mappingStruct] at h
  cases hl : structLoop authFieldOf "main.Auth" authField aps ⟨a0, [], []⟩ with
  | error msg => rw [hl] at h; simp at h
  | ok st =>
    rw [hl] at h
    simp only [Except.ok.injEq] at h
    rw [← h] at hr ⊢
    obtain ⟨g, a1, r1, hg, _, hs, hr1, hfin⟩ := structLoop_present authFieldOf "main.Auth"
      authField Auth.get authField_other aps _ st ((mergeFree_iff aps).mp hmf) hl hr (k, v) hm
    rw [keyField_of_written authFieldOf k v name hk] at hg
    refine ⟨g, hg, ?_⟩
    simp only
    rw [hfin]
    exact authField_ok a1 g v r1 hs hr1

/-- In a top-level mapping without merge keys that is decoded without an issue, every key
names a field of `Config`, its value decodes without an issue from a target that holds
the initial value of the field, and the field ends with the decoded value. -/
theorem mappingStructPlain_present (pairs : List (Node × Node)) (c0 : Config)
    (r : Config × List TypeIssue) (hmf : mergeFree pairs = true)
    (h : mappingStructPlain pairs c0 = .ok r) (hr : r.2 = []) (k v : Node)
    (hm : (k, v) ∈ pairs) (name : String) (hk : writtenString k = some name) :
    ∃ f c1 r1, configFieldOf name = some f ∧ c1.get f = c0.get f ∧
      plainField c1 f v = .ok r1 ∧ r1.2 = [] ∧ r.1.get f = r1.1.get f := by
  simp only [mappingStructPlain, mappingStruct] at h
  cases hl : structLoop configFieldOf "main.plain" plainField pairs ⟨c0, [], []⟩ with
  | error msg => rw [hl] at h; simp at h
  | ok st =>
    rw [hl] at h
    simp only [Except.ok.injEq] at h
    rw [← h] at hr ⊢
    obtain ⟨f, c1, r1, hf, hc, hs, hr1, hfin⟩ := structLoop_present configFieldOf "main.plain"
      plainField Config.get plainField_other pairs _ st ((mergeFree_iff pairs).mp hmf) hl hr
      (k, v) hm
    rw [keyField_of_written configFieldOf k v name hk] at hf
    exact ⟨f, c1, r1, hf, hc, hs, hr1, hfin⟩

/-- A successful Load of a text whose root is a mapping: the decoder neither aborted nor
recorded an issue, and the Config is the target it filled from DefaultConfig. -/
theorem Load_mapping_success (parse : Parser) (s : String) (pairs : List (Node × Node))
    (c : Config) (hp : parse s = .ok (some (.mapping pairs)))
    (hl : Load parse s = (some c, none)) :
    mappingStructPlain pairs DefaultConfig = .ok (c, []) := by
  rw [Load_of_root parse s _ hp rfl] at hl
  simp only [unmarshalPlain] at hl
  cases h : mappingStructPlain pairs DefaultConfig with
  | error msg => rw [h] at hl; simp at hl
  | ok r =>
    rw [h] at hl
    by_cases h2 : r.2 = []
    · simp only [h2, if_true, Prod.mk.injEq, Option.some.injEq, and_true] at hl
      rw [← hl, ← h2]
    · simp [h2] at hl

/-- A value decoded into a string field of `plain` without an issue is a scalar, and the
field then holds the string that the scalar writes. -/
theorem plainField_string (c1 : Config) (f : ConfigField) (v : Node)
    (r : Config × List TypeIssue) (hf : f = .format ∨ f = .topic ∨ f = .outputFile)
    (hs : plainField c1 f v = .ok r) (hr : r.2 = []) :
    ∃ x, writtenString v = some x ∧ r.1.get f = .str x := by
  cases hv : unmarshalString v with
  | abort msg => rcases hf with rfl | rfl | rfl <;> simp [plainField, hv] at hs
  | issue e =>
    rcases hf with rfl | rfl | rfl <;>
      (simp only [plainField, hv, Except.ok.injEq] at hs; rw [← hs] at hr; simp at hr)
  | value x =>
    have hw := (unmarshalString_value_iff v x).mp hv
    rcases hf with rfl | rfl | rfl <;>
      (simp only [plainField, hv, Except.ok.injEq] at hs; rw [← hs]; exact ⟨x, hw, rfl⟩)

/-- A value decoded into the `sub_topics` field without an issue is null, giving the
empty list, or a sequence, giving the strings that its elements write, in order. -/
theorem unmarshalStrings_ok (v : Node) (out : List String) (r : List String × List TypeIssue)
    (hs : unmarshalStrings v out = .ok r) (hr : r.2 = []) :
    (v.isNull = true ∧ r.1 = []) ∨
      ∃ items, v = .sequence items ∧ items.map writtenString = r.1.map some := by
  cases v with
  | scalar kind text =>
    cases kind with
    | null =>
      simp only [unmarshalStrings, scalarInto, Except.ok.injEq] at hs
      exact Or.inl ⟨rfl, by rw [← hs]⟩
    | binary data =>
      cases data with
      | none => simp [unmarshalStrings, scalarInto] at hs
      | some d =>
        simp only [unmarshalStrings, scalarInto, Except.ok.injEq] at hs
        rw [← hs] at hr
        simp at hr
    | invalid rtag tag => simp [unmarshalStrings, scalarInto] at hs
    | str =>
      simp only [unmarshalStrings, scalarInto, Except.ok.injEq] at hs
      rw [← hs] at hr
      simp at hr
    | merge =>
      simp only [unmarshalStrings, scalarInto, Except.ok.injEq] at hs
      rw [← hs] at hr
      simp at hr
    | other tag =>
      simp only [unmarshalStrings, scalarInto, Except.ok.injEq] at hs
      rw [← hs] at hr
      simp at hr
  | mapping ps =>
    simp only [unmarshalStrings, Except.ok.injEq] at hs
    rw [← hs] at hr
    simp at hr
  | sequence items =>
    simp only [unmarshalStrings] at hs
    exact Or.inr ⟨items, rfl, sequenceStrings_ok items r hs hr⟩

/-- A value decoded into the `auth` field without an issue is null, giving the zero
Auth, or a mapping, decoded by `mappingStruct`. -/
theorem unmarshalAuth_ok (v : Node) (a : Auth) (r : Auth × List TypeIssue)
    (hs : unmarshalAuth v a = .ok r) (hr : r.2 = []) :
    (v.isNull = true ∧ r.1 = Auth.zero) ∨
      ∃ aps, v = .mapping aps ∧ mappingStructAuth aps a = .ok r := by
  cases v with
  | scalar kind text =>
    cases kind with
    | null =>
      simp only [unmarshalAuth, scalarInto, Except.ok.injEq] at hs
      exact Or.inl ⟨rfl, by rw [← hs]⟩
    | binary data =>
      cases data with
      | none => simp [unmarshalAuth, scalarInto] at hs
      | some d =>
        simp only [unmarshalAuth, scalarInto, Except.ok.injEq] at hs
        rw [← hs] at hr
        simp at hr
    | invalid rtag tag => simp [unmarshalAuth, scalarInto] at hs
    | str =>
      simp only [unmarshalAuth, scalarInto, Except.ok.injEq] at hs
      rw [← hs] at hr
      simp at hr
    | merge =>
      simp only [unmarshalAuth, scalarInto, Except.ok.injEq] at hs
      rw [← hs] at hr
      simp at hr
    | other tag =>
      simp only [unmarshalAuth, scalarInto, Except.ok.injEq] at hs
      rw [← hs] at hr
      simp at hr
  | sequence cs =>
    simp only [unmarshalAuth, Except.ok.injEq] at hs
    rw [← hs] at hr
    simp at hr
  | mapping aps => exact Or.inr ⟨aps, rfl, hs⟩

/-- The Auth that an `auth` key gives, in a top-level mapping without merge keys that is
decoded without an issue: the decoding of its value into the Auth of the initial target,
itself without an issue. -/
theorem mappingStructPlain_auth (pairs : List (Node × Node)) (c0 : Config)
    (r : Config × List TypeIssue) (hmf : mergeFree pairs = true)
    (h : mappingStructPlain pairs c0 = .ok r) (hr : r.2 = []) (k v : Node)
    (hm : (k, v) ∈ pairs) (hk : writtenString k = some "auth") :
    ∃ ra, unmarshalAuth v c0.Auth = .ok ra ∧ ra.2 = [] ∧ r.1.Auth = ra.1 := by
  obtain ⟨f, c1, r1, hf, hc1, hs, hr1, hfin⟩ := mappingStructPlain_present pairs c0 r hmf h hr
    k v hm "auth" hk
  obtain rfl : ConfigField.auth = f := by simpa [configFieldOf] using hf
  simp only [plainField] at hs
  simp only [Config.get, FieldValue.auth.injEq] at hfin hc1
  cases ha : unmarshalAuth v c1.Auth with
  | error msg => rw [ha] at hs; simp at hs
  | ok ra =>
    rw [ha] at hs
    simp only [Except.ok.injEq] at hs
    rw [← hs] at hr1 hfin
    rw [hc1] at ha
    exact ⟨ra, ha, hr1, hfin⟩

/-- C4, counterexample: the key `topic` is present with the value `b`, Load succeeds, and
Topic is `a`, the value of the merged mapping that follows the key. -/
theorem Load_merge_overrides_key :
    exampleParse "topic: b\n<<: \x7btopic: a\x7d\n"
        = .ok (some (.mapping [(.str "topic", .str "b"),
            (.scalar .merge "<<", .mapping [(.str "topic", .str "a")])])) ∧
      writtenString (.str "topic") = some "topic" ∧ writtenString (.str "b") = some "b" ∧
      Load exampleParse "topic: b\n<<: \x7btopic: a\x7d\n"
        = (some ⟨⟨"", "", "", ""⟩, "", "a", [], "README.md"⟩, none) :=
  ⟨by rfl, by rfl, by rfl, by rfl⟩

/-- C4 (amended): overlay of the present keys.  When Load succeeds on a text whose first
document is a mapping without merge keys, every key of the mapping gives its field the
value written for it: `format`, `topic` and `output_file` hold the string that their
scalar writes (its text; the empty string for a null scalar, the decoded data for a
`!!binary` scalar), `sub_topics` holds the strings that the elements of its sequence
write, in the same order, and inside an `auth` mapping without merge keys `username`,
`password` and `access_token` hold the string that their scalar writes.  A null value
gives the empty list or the zero Auth. -/
theorem Load_overlays_present_keys (parse : Parser) (s : String) (pairs : List (Node × Node))
    (c : Config) (hp : parse s = .ok (some (.mapping pairs)))
    (hl : Load parse s = (some c, none)) (hmf : mergeFree pairs = true) (k v : Node)
    (hm : (k, v) ∈ pairs) (name : String) (hk : writtenString k = some name) :
    (name = "format" → writtenString v = some c.Format) ∧
    (name = "topic" → writtenString v = some c.Topic) ∧
    (name = "output_file" → writtenString v = some c.OutputFile) ∧
    (name = "sub_topics" → (v.isNull = true ∧ c.SubTopics = []) ∨
      ∃ items, v = .sequence items ∧ items.map writtenString = c.SubTopics.map some) ∧
    (name = "auth" → (v.isNull = true ∧ c.Auth = Auth.zero) ∨
      ∃ aps, v = .mapping aps ∧ (mergeFree aps = true → ∀ k2 v2, (k2, v2) ∈ aps → ∀ name2,
        writtenString k2 = some name2 →
        (name2 = "username" → writtenString v2 = some c.Auth.Username) ∧
        (name2 = "password" → writtenString v2 = some c.Auth.Password) ∧
        (name2 = "access_token" → writtenString v2 = some c.Auth.AccessToken))) := by
  have hdec := Load_mapping_success parse s pairs c hp hl
  obtain ⟨f, c1, r1, hf, hc1, hs, hr1, hfin⟩ := mappingStructPlain_present pairs DefaultConfig
    (c, []) hmf hdec rfl k v hm name hk
  simp only at hfin
  refine ⟨?_, ?_, ?_, ?_, ?_⟩
  · rintro rfl
    obtain rfl : ConfigField.format = f := by simpa [configFieldOf] using hf
    obtain ⟨x, hx, hget⟩ := plainField_string c1 _ v r1 (Or.inl rfl) hs hr1
    rw [hget] at hfin
    simp only [Config.get, FieldValue.str.injEq] at hfin
    rw [hx, hfin]
  · rintro rfl
    obtain rfl : ConfigField.topic = f := by simpa [configFieldOf] using hf
    obtain ⟨x, hx, hget⟩ := plainField_string c1 _ v r1 (Or.inr (Or.inl rfl)) hs hr1
    rw [hget] at hfin
    simp only [Config.get, FieldValue.str.injEq] at hfin
    rw [hx, hfin]
  · rintro rfl
    obtain rfl : ConfigField.outputFile = f := by simpa [configFieldOf] using hf
    obtain ⟨x, hx, hget⟩ := plainField_string c1 _ v r1 (Or.inr (Or.inr rfl)) hs hr1
    rw [hget] at hfin
    simp only [Config.get, FieldValue.str.injEq] at hfin
    rw [hx, hfin]
  · rintro rfl
    obtain rfl : ConfigField.subTopics = f := by simpa [configFieldOf] using hf
    simp only [plainField] at hs
    cases hu : unmarshalStrings v c1.SubTopics with
    | error msg => rw [hu] at hs; simp at hs
    | ok ru =>
      rw [hu] at hs
      simp only [Except.ok.injEq] at hs
      rw [← hs] at hr1 hfin
      simp only [Config.get, FieldValue.strs.injEq] at hfin
      rw [hfin]
      exact unmarshalStrings_ok v _ ru hu hr1
  · rintro rfl
    obtain ⟨ra, ha, hra, hauth⟩ := mappingStructPlain_auth pairs DefaultConfig (c, []) hmf hdec
      rfl k v hm hk
    simp only at hauth
    rw [hauth]
    rcases unmarshalAuth_ok v _ ra ha hra with hnull | ⟨aps, rfl, hms⟩
    · exact Or.inl hnull
    · refine Or.inr ⟨aps, rfl, ?_⟩
      intro hmf2 k2 v2 hm2 name2 hk2
      obtain ⟨g, hg, hv⟩ := mappingStructAuth_present aps _ ra hmf2 hms hra k2 v2 hm2 name2 hk2
      refine ⟨?_, ?_, ?_⟩
      · rintro rfl
        obtain rfl : AuthField.username = g := by simpa [authFieldOf] using hg
        exact hv
      · rintro rfl
        obtain rfl : AuthField.password = g := by simpa [authFieldOf] using hg
        exact hv
      · rintro rfl
        obtain rfl : AuthField.accessToken = g := by simpa [authFieldOf] using hg
        exact hv

/-- C4 (amended), witness: scenario A.  The text gives Topic and OutputFile the values
written and leaves the other fields at their defaults; the theorem is applied at the key
`topic`. -/
theorem Load_overlays_present_keys_witness :
    Load exampleParse "topic: golang\noutput_file: OUT.md\n"
        = (some ⟨Auth.zero, "", "golang", [], "OUT.md"⟩, none) ∧
      writtenString (.str "golang") = some "golang" :=
  ⟨by rfl,
   (Load_overlays_present_keys exampleParse "topic: golang\noutput_file: OUT.md\n"
      [(.str "topic", .str "golang"), (.str "output_file", .str "OUT.md")]
      ⟨Auth.zero, "", "golang", [], "OUT.md"⟩ (by rfl) (by rfl) (by decide)
      (.str "topic") (.str "golang") (by simp) "topic" (by rfl)).2.1 rfl⟩

/-! ## C2: defaults for the absent keys -/

/-- The key table of `Config` names each field by one key only. -/
theorem configFieldOf_eq (name : String) (f : ConfigField) (h : configFieldOf name = some f) :
    name = f.key := by
  unfold configFieldOf at h
  split_ifs at h with h1 h2 h3 h4 h5 <;> simp at h <;> subst h <;> assumption

/-- The key table of `Auth` names each field by one key only. -/
theorem authFieldOf_eq (name : String) (g : AuthField) (h : authFieldOf name = some g) :
    name = g.key := by
  unfold authFieldOf at h
  split_ifs at h with h1 h2 h3 h4 <;> simp at h <;> subst h <;> assumption

/-- The key table of `Config` knows every recognized key. -/
theorem configFieldOf_some (name : String) (h : name ∈ recognizedKeys) :
    ∃ f, configFieldOf name = some f := by
  simp only [recognizedKeys, List.mem_cons, List.mem_singleton, List.mem_nil_iff,
    or_false] at h
  rcases h with rfl | rfl | rfl | rfl | rfl <;> exact ⟨_, rfl⟩

/-- The key table of `Auth` knows every recognized key of `auth`, `otp` included. -/
theorem authFieldOf_some (name : String) (h : name ∈ recognizedAuthKeys) :
    ∃ g, authFieldOf name = some g := by
  simp only [recognizedAuthKeys, List.mem_cons, List.mem_singleton, List.mem_nil_iff,
    or_false] at h
  rcases h with rfl | rfl | rfl | rfl <;> exact ⟨_, rfl⟩

/-- A key that is one of `names`: it is not a merge key and writes one of them. -/
theorem keyIn_iff (names : List String) (kv : Node × Node) :
    keyIn names kv = true ↔
      kv.1.isMerge = false ∧ ∃ name, writtenString kv.1 = some name ∧ name ∈ names := by
  cases hw : writtenString kv.1 with
  | none => simp [keyIn, hw]
  | some name => simp [keyIn, hw, List.contains_eq_any_beq]

/-- When no key writes `name`, no key names a field whose only key is `name`. -/
theorem keyField_ne_of_keyAbsent {φ : Type} (fieldOf : String → Option φ) (name : String)
    (f : φ) (hinj : ∀ n, fieldOf n = some f → n = name) (pairs : List (Node × Node))
    (h : keyAbsent name pairs = true) : ∀ kv ∈ pairs, keyField fieldOf kv ≠ some f := by
  intro kv hm hk
  unfold keyAbsent at h
  have h1 := List.all_eq_true.mp h kv hm
  unfold keyField at hk
  cases hn : unmarshalString kv.1 with
  | abort msg => rw [hn] at hk; simp at hk
  | issue e => rw [hn] at hk; simp at hk
  | value n =>
    rw [hn] at hk
    simp only at hk
    have hw := (unmarshalString_value_iff kv.1 n).mp hn
    rw [hw, hinj n hk] at h1
    simp at h1

/-- Keys that write pairwise different names of a key table that names each field by one
key only name pairwise different fields. -/
theorem keyField_nodup {φ : Type} (fieldOf : String → Option φ) (nameOf : φ → String)
    (hinj : ∀ n f, fieldOf n = some f → n = nameOf f) (pairs : List (Node × Node))
    (hall : ∀ kv ∈ pairs, ∃ n f, writtenString kv.1 = some n ∧ fieldOf n = some f)
    (hnd : (pairs.map fun kv => writtenString kv.1).Nodup) :
    (pairs.map (keyField fieldOf)).Nodup := by
  refine List.Nodup.map_on ?_ (List.Nodup.of_map _ hnd)
  intro x hx y hy hxy
  refine List.inj_on_of_nodup_map hnd hx hy ?_
  obtain ⟨nx, fx, hwx, hfx⟩ := hall x hx
  obtain ⟨ny, fy, hwy, hfy⟩ := hall y hy
  rw [keyField_of_written fieldOf x.1 x.2 nx hwx, keyField_of_written fieldOf y.1 y.2 ny hwy,
    hfx, hfy] at hxy
  have hff : fx = fy := Option.some.inj hxy
  show writtenString x.1 = writtenString y.1
  rw [hwx, hwy, hinj nx fx hfx, hinj ny fy hfy, hff]

/-- A node that writes a string decodes into a string. -/
theorem unmarshalString_writes (v : Node) (h : writesString v = true) :
    ∃ x, unmarshalString v = .value x := by
  unfold writesString at h
  obtain ⟨x, hx⟩ := Option.isSome_iff_exists.mp h
  exact ⟨x, (unmarshalString_value_iff v x).mpr hx⟩

/-- A sequence of nodes that write a string decodes into a `[]string` without an issue. -/
theorem sequenceStrings_writes : ∀ (items : List Node), items.all writesString = true →
    ∃ l, sequenceStrings items = .ok (l, []) := by
  intro items
  induction items with
  | nil => intro _; exact ⟨[], rfl⟩
  | cons n rest ih =>
    intro h
    simp only [List.all_cons, Bool.and_eq_true] at h
    obtain ⟨x, hx⟩ := unmarshalString_writes n h.1
    obtain ⟨l, hl⟩ := ih h.2
    exact ⟨x :: l, by simp [sequenceStrings, hx, hl]⟩

/-- A value of the kind of an `Auth` decodes into the `auth` field without an issue. -/
theorem unmarshalAuth_fits (v : Node) (a : Auth) (h : authFits v = true) :
    ∃ a2, unmarshalAuth v a = .ok (a2, []) := by
  cases v with
  | scalar kind text =>
    cases kind with
    | null => exact ⟨Auth.zero, rfl⟩
    | _ => simp [authFits] at h
  | sequence cs => simp [authFits] at h
  | mapping aps =>
    simp only [authFits, Bool.and_eq_true, decide_eq_true_eq, List.all_eq_true] at h
    have hall : ∀ kv ∈ aps, ∃ n g, writtenString kv.1 = some n ∧ authFieldOf n = some g := by
      intro kv hm
      obtain ⟨_, n, hw, hn⟩ := (keyIn_iff _ kv).mp (h.1 kv hm).1
      obtain ⟨g, hg⟩ := authFieldOf_some n hn
      exact ⟨n, g, hw, hg⟩
    obtain ⟨st2, hl, hnil⟩ := structLoop_ok authFieldOf "main.Auth" authField aps ⟨a, [], []⟩ rfl
      (by
        intro kv hm
        obtain ⟨hmg, n, hw, hn⟩ := (keyIn_iff _ kv).mp (h.1 kv hm).1
        obtain ⟨g, hg⟩ := authFieldOf_some n hn
        refine ⟨hmg, g, by rw [keyField_of_written authFieldOf kv.1 kv.2 n hw, hg], by simp, ?_⟩
        intro c
        obtain ⟨x, hx⟩ := unmarshalString_writes kv.2 (h.1 kv hm).2
        exact ⟨c.set g x, by simp [authField, hx]⟩)
      (keyField_nodup authFieldOf AuthField.key authFieldOf_eq aps hall h.2)
    refine ⟨st2.out, ?_⟩
    simp only [unmarshalAuth, mappingStructAuth, mappingStruct, hl]
    rw [hnil]

/-- A value of the kind of its field decodes into the field without an issue. -/
theorem plainField_fits (name : String) (f : ConfigField) (v : Node) (c : Config)
    (hf : configFieldOf name = some f) (h : valueFits name v = true) :
    ∃ c2, plainField c f v = .ok (c2, []) := by
  have hname := configFieldOf_eq name f hf
  cases f with
  | auth =>
    simp only [ConfigField.key] at hname
    subst hname
    simp only [valueFits, if_true] at h
    obtain ⟨a2, ha⟩ := unmarshalAuth_fits v c.Auth h
    exact ⟨{ c with Auth := a2 }, by simp [plainField, ha]⟩
  | format =>
    simp only [ConfigField.key] at hname
    subst hname
    obtain ⟨x, hx⟩ := unmarshalString_writes v (by simpa [valueFits] using h)
    exact ⟨{ c with Format := x }, by simp [plainField, hx]⟩
  | topic =>
    simp only [ConfigField.key] at hname
    subst hname
    obtain ⟨x, hx⟩ := unmarshalString_writes v (by simpa [valueFits] using h)
    exact ⟨{ c with Topic := x }, by simp [plainField, hx]⟩
  | outputFile =>
    simp only [ConfigField.key] at hname
    subst hname
    obtain ⟨x, hx⟩ := unmarshalString_writes v (by simpa [valueFits] using h)
    exact ⟨{ c with OutputFile := x }, by simp [plainField, hx]⟩
  | subTopics =>
    simp only [ConfigField.key] at hname
    subst hname
    cases v with
    | scalar kind text =>
      cases kind with
      | null => exact ⟨{ c with SubTopics := [] }, by simp [plainField, unmarshalStrings, scalarInto]⟩
      | _ => simp [valueFits] at h
    | mapping ps => simp [valueFits] at h
    | sequence items =>
      obtain ⟨l, hl⟩ := sequenceStrings_writes items (by simpa [valueFits] using h)
      exact ⟨{ c with SubTopics := l }, by simp [plainField, unmarshalStrings, hl]⟩

/-- A well-typed mapping has no merge key and decodes into a `plain` without an issue. -/
theorem mappingStructPlain_wellTyped (pairs : List (Node × Node)) (c0 : Config)
    (hw : wellTyped (.mapping pairs) = true) :
    mergeFree pairs = true ∧ ∃ c, mappingStructPlain pairs c0 = .ok (c, []) := by
  simp only [wellTyped, Bool.and_eq_true, decide_eq_true_eq, List.all_eq_true] at hw
  have hkey : ∀ kv ∈ pairs, kv.1.isMerge = false ∧
      ∃ n f, writtenString kv.1 = some n ∧ configFieldOf n = some f ∧ valueFits n kv.2 = true := by
    intro kv hm
    obtain ⟨hmg, n, hwn, hn⟩ := (keyIn_iff _ kv).mp (hw.1 kv hm).1
    obtain ⟨f, hf⟩ := configFieldOf_some n hn
    have hv := (hw.1 kv hm).2
    rw [hwn] at hv
    exact ⟨hmg, n, f, hwn, hf, hv⟩
  refine ⟨(mergeFree_iff pairs).mpr (fun kv hm => (hkey kv hm).1), ?_⟩
  obtain ⟨st2, hl, hnil⟩ := structLoop_ok configFieldOf "main.plain" plainField pairs
    ⟨c0, [], []⟩ rfl
    (by
      intro kv hm
      obtain ⟨hmg, n, f, hwn, hf, hv⟩ := hkey kv hm
      exact ⟨hmg, f, by rw [keyField_of_written configFieldOf kv.1 kv.2 n hwn, hf], by simp,
        fun c => plainField_fits n f kv.2 c hf hv⟩)
    (keyField_nodup configFieldOf ConfigField.key configFieldOf_eq pairs
      (fun kv hm => by
        obtain ⟨_, n, f, hwn, hf, _⟩ := hkey kv hm
        exact ⟨n, f, hwn, hf⟩) hw.2)
  refine ⟨st2.out, ?_⟩
  simp only [mappingStructPlain, mappingStruct, hl]
  rw [hnil]

/-- A field of `Config` whose key is absent from a mapping without merge keys keeps the
value the target had before the mapping was decoded. -/
theorem mappingStructPlain_absent (pairs : List (Node × Node)) (c0 : Config)
    (r : Config × List TypeIssue) (hmf : mergeFree pairs = true)
    (h : mappingStructPlain pairs c0 = .ok r) (name : String) (f : ConfigField)
    (hinj : ∀ n, configFieldOf n = some f → n = name) (hab : keyAbsent name pairs = true) :
    r.1.get f = c0.get f := by
  simp only [mappingStructPlain, mappingStruct] at h
  cases hl : structLoop configFieldOf "main.plain" plainField pairs ⟨c0, [], []⟩ with
  | error msg => rw [hl] at h; simp at h
  | ok st =>
    rw [hl] at h
    simp only [Except.ok.injEq] at h
    rw [← h]
    exact structLoop_absent configFieldOf "main.plain" plainField Config.get
      plainField_other f pairs ⟨c0, [], []⟩ st ((mergeFree_iff pairs).mp hmf) hl
      (keyField_ne_of_keyAbsent configFieldOf name f hinj pairs hab)

/-- A field of `Auth` whose key is absent from an `auth` mapping without merge keys keeps
the value the target had before the mapping was decoded. -/
theorem mappingStructAuth_absent (aps : List (Node × Node)) (a0 : Auth)
    (r : Auth × List TypeIssue) (hmf : mergeFree aps = true)
    (h : mappingStructAuth aps a0 = .ok r) (name : String) (g : AuthField)
    (hinj : ∀ n, authFieldOf n = some g → n = name) (hab : keyAbsent name aps = true) :
    r.1.get g = a0.get g := by
  simp only [mappingStructAuth, mappingStruct] at h
  cases hl : structLoop authFieldOf "main.Auth" authField aps ⟨a0, [], []⟩ with
  | error msg => rw [hl] at h; simp at h
  | ok st =>
    rw [hl] at h
    simp only [Except.ok.injEq] at h
    rw [← h]
    exact structLoop_absent authFieldOf "main.Auth" authField Auth.get
      authField_other g aps ⟨a0, [], []⟩ st ((mergeFree_iff aps).mp hmf) hl
      (keyField_ne_of_keyAbsent authFieldOf name g hinj aps hab)

/-- An `auth` mapping inside a well-typed document has no merge key. -/
theorem wellTyped_auth_mergeFree (pairs : List (Node × Node)) (k : Node)
    (aps : List (Node × Node)) (hw : wellTyped (.mapping pairs) = true)
    (hm : (k, .mapping aps) ∈ pairs) (hk : writtenString k = some "auth") :
    mergeFree aps = true := by
  simp only [wellTyped, Bool.and_eq_true, decide_eq_true_eq, List.all_eq_true] at hw
  have h1 := (hw.1 _ hm).2
  simp only [hk, valueFits, if_true, authFits, Bool.and_eq_true, List.all_eq_true] at h1
  refine (mergeFree_iff aps).mpr (fun kv hkv => ?_)
  exact ((keyIn_iff _ kv).mp (h1.1 kv hkv).1).1

/-- C2 (amended): defaults for the absent keys.  When the first document of the text s is
a mapping whose keys are pairwise different recognized keys, none a merge key, with
values of the kind of their field, Load succeeds, every field whose key is absent from
the mapping equals the field of DefaultConfig, every field of Auth whose key is absent
from the `auth` mapping equals the field of DefaultConfig.Auth, and the empty mapping
gives DefaultConfig. -/
theorem Load_defaults_for_absent_keys (parse : Parser) (s : String)
    (pairs : List (Node × Node)) (hp : parse s = .ok (some (.mapping pairs)))
    (hw : wellTyped (.mapping pairs) = true) :
    ∃ c, Load parse s = (some c, none) ∧
      (keyAbsent "auth" pairs = true → c.Auth = DefaultConfig.Auth) ∧
      (keyAbsent "format" pairs = true → c.Format = DefaultConfig.Format) ∧
      (keyAbsent "topic" pairs = true → c.Topic = DefaultConfig.Topic) ∧
      (keyAbsent "sub_topics" pairs = true → c.SubTopics = DefaultConfig.SubTopics) ∧
      (keyAbsent "output_file" pairs = true → c.OutputFile = DefaultConfig.OutputFile) ∧
      (∀ k v, (k, v) ∈ pairs → writtenString k = some "auth" →
        (v.isNull = true → c.Auth = DefaultConfig.Auth) ∧
        (∀ aps, v = .mapping aps →
          (keyAbsent "username" aps = true → c.Auth.Username = DefaultConfig.Auth.Username) ∧
          (keyAbsent "password" aps = true → c.Auth.Password = DefaultConfig.Auth.Password) ∧
          (keyAbsent "otp" aps = true → c.Auth.OTP = DefaultConfig.Auth.OTP) ∧
          (keyAbsent "access_token" aps = true →
            c.Auth.AccessToken = DefaultConfig.Auth.AccessToken))) ∧
      (pairs = [] → c = DefaultConfig) := by
  obtain ⟨hmf, c, hdec⟩ := mappingStructPlain_wellTyped pairs DefaultConfig hw
  refine ⟨c, ?_, ?_, ?_, ?_, ?_, ?_, ?_, ?_⟩
  · rw [Load_of_root parse s _ hp rfl]
    simp [unmarshalPlain, hdec]
  · intro h
    have := mappingStructPlain_absent pairs DefaultConfig (c, []) hmf hdec "auth" .auth
      (fun n hn => configFieldOf_eq n _ hn) h
    simpa [Config.get] using this
  · intro h
    have := mappingStructPlain_absent pairs DefaultConfig (c, []) hmf hdec "format" .format
      (fun n hn => configFieldOf_eq n _ hn) h
    simpa [Config.get] using this
  · intro h
    have := mappingStructPlain_absent pairs DefaultConfig (c, []) hmf hdec "topic" .topic
      (fun n hn => configFieldOf_eq n _ hn) h
    simpa [Config.get] using this
  · intro h
    have := mappingStructPlain_absent pairs DefaultConfig (c, []) hmf hdec "sub_topics"
      .subTopics (fun n hn => configFieldOf_eq n _ hn) h
    simpa [Config.get] using this
  · intro h
    have := mappingStructPlain_absent pairs DefaultConfig (c, []) hmf hdec "output_file"
      .outputFile (fun n hn => configFieldOf_eq n _ hn) h
    simpa [Config.get] using this
  · intro k v hm hk
    obtain ⟨ra, ha, hra, hauth⟩ := mappingStructPlain_auth pairs DefaultConfig (c, []) hmf hdec
      rfl k v hm hk
    simp only at hauth
    constructor
    · intro hv
      rcases unmarshalAuth_ok v _ ra ha hra with ⟨_, hz⟩ | ⟨aps, rfl, _⟩
      · rw [hauth, hz]
        rfl
      · simp [Node.isNull] at hv
    · rintro aps rfl
      have hmf2 := wellTyped_auth_mergeFree pairs k aps hw hm hk
      simp only [unmarshalAuth] at ha
      rw [hauth]
      refine ⟨?_, ?_, ?_, ?_⟩
      · intro h
        exact mappingStructAuth_absent aps _ ra hmf2 ha "username" .username
          (fun n hn => authFieldOf_eq n _ hn) h
      · intro h
        exact mappingStructAuth_absent aps _ ra hmf2 ha "password" .password
          (fun n hn => authFieldOf_eq n _ hn) h
      · intro h
        exact mappingStructAuth_absent aps _ ra hmf2 ha "otp" .otp
          (fun n hn => authFieldOf_eq n _ hn) h
      · intro h
        exact mappingStructAuth_absent aps _ ra hmf2 ha "access_token" .accessToken
          (fun n hn => authFieldOf_eq n _ hn) h
  · rintro rfl
    have h0 : mappingStructPlain [] DefaultConfig = .ok (DefaultConfig, []) := by rfl
    rw [h0] at hdec
    simp only [Except.ok.injEq, Prod.mk.injEq, and_true] at hdec
    exact hdec.symm

/-- C2, counterexample: three texts that are valid YAML with the recognized key `topic`
only, on which Load fails: the value is a sequence, the key is written twice, the value
carries an explicit tag that its text does not match. -/
theorem Load_recognized_keys_can_fail :
    exampleParse "topic: [a, b]\n"
        = .ok (some (.mapping [(.str "topic", .sequence [.str "a", .str "b"])])) ∧
      hasUnknownKey (.mapping [(.str "topic", .sequence [.str "a", .str "b"])]) = false ∧
      Load exampleParse "topic: [a, b]\n"
        = (none, some (.yamlType [.cannotUnmarshal "!!seq" "" "string"])) ∧
      hasUnknownKey (.mapping [(.str "topic", .str "a"), (.str "topic", .str "b")]) = false ∧
      Load exampleParse "topic: a\ntopic: b\n"
        = (none, some (.yamlType [.alreadySet "topic" "main.plain"])) ∧
      hasUnknownKey (.mapping [(.str "topic", .scalar (.invalid "!!str" "!!int") "abc")])
        = false ∧
      Load exampleParse "topic: !!int abc\n"
        = (none, some (.yamlFail "cannot decode !!str `abc` as a !!int")) :=
  ⟨by rfl, by decide, by rfl, by decide, by rfl, by decide, by rfl⟩

/-- C2 (amended), witness: scenario B keeps the default OutputFile and the empty
Username, and the text `{}` gives DefaultConfig. -/
theorem Load_defaults_for_absent_keys_witness :
    (∃ c, Load exampleParse "auth:\n  access_token: abc123\ntopic: rust\n" = (some c, none) ∧
      c.OutputFile = "README.md" ∧ c.Auth.Username = "") ∧
    (∃ c, Load exampleParse "{}" = (some c, none) ∧ c = DefaultConfig) := by
  obtain ⟨c, hl, _, _, _, _, ho, ha, _⟩ := Load_defaults_for_absent_keys exampleParse
    "auth:\n  access_token: abc123\ntopic: rust\n"
    [(.str "auth", .mapping [(.str "access_token", .str "abc123")]), (.str "topic", .str "rust")]
    (by rfl) (by decide)
  obtain ⟨c2, hl2, _, _, _, _, _, _, he⟩ := Load_defaults_for_absent_keys exampleParse "{}" []
    (by rfl) (by decide)
  exact ⟨⟨c, hl, ho (by decide),
    ((ha (.str "auth") (.mapping [(.str "access_token", .str "abc123")]) (by simp)
      (by rfl)).2 [(.str "access_token", .str "abc123")] rfl).1 (by decide)⟩,
    ⟨c2, hl2, he rfl⟩⟩

/-! ## C6: the key `otp` -/

/-- A mapping in which the key `name` is not absent has a pair whose key writes `name`. -/
theorem exists_key_of_not_keyAbsent (name : String) (pairs : List (Node × Node))
    (h : keyAbsent name pairs = false) :
    ∃ k v, (k, v) ∈ pairs ∧ writtenString k = some name := by
  unfold keyAbsent at h
  obtain ⟨kv, hm, hkv⟩ := List.all_eq_false.mp h
  exact ⟨kv.1, kv.2, hm, by simpa using hkv⟩

/-- C6, counterexample: a text whose `auth` mapping has the key `otp` is accepted by
Load, and the Config has the one-time password written in the text. -/
theorem Load_reads_otp_key :
    exampleParse "auth:\n  otp: \"123456\"\n"
        = .ok (some (.mapping [(.str "auth", .mapping [(.str "otp", .str "123456")])])) ∧
      Load exampleParse "auth:\n  otp: \"123456\"\n"
        = (some ⟨⟨"", "", "123456", ""⟩, "", "", [], "README.md"⟩, none) :=
  ⟨by rfl, by rfl⟩

/-- C6 (amended): the one-time password is read from the key `otp`, the field name in
lower case.  The key `otp` is a recognized key of the `auth` mapping: Load succeeds on
every text whose first document is a mapping of pairwise different recognized keys,
`otp` among those of `auth`, with values of the kind of their field, and Auth.OTP is then
the string that the scalar of `otp` writes.  Whenever Load succeeds on a document without
merge keys, a key `otp` in the `auth` mapping gives Auth.OTP the string that its scalar
writes, and when the text holds no document, or its first document has no merge key and
no key `otp` in an `auth` mapping, Auth.OTP is the empty string. -/
theorem Load_OTP_from_otp_key (parse : Parser) (s : String) :
    (∀ pairs, parse s = .ok (some (.mapping pairs)) → wellTyped (.mapping pairs) = true →
      ∃ c, Load parse s = (some c, none) ∧
        ∀ k aps k2 v2, (k, .mapping aps) ∈ pairs → writtenString k = some "auth" →
          (k2, v2) ∈ aps → writtenString k2 = some "otp" →
          writtenString v2 = some c.Auth.OTP) ∧
    (∀ c, Load parse s = (some c, none) →
      (parse s = .ok none → c.Auth.OTP = "") ∧
      (∀ n, parse s = .ok (some n) → otpFree n = true → c.Auth.OTP = "") ∧
      (∀ pairs k aps k2 v2, parse s = .ok (some (.mapping pairs)) → mergeFree pairs = true →
        (k, .mapping aps) ∈ pairs → writtenString k = some "auth" → mergeFree aps = true →
        (k2, v2) ∈ aps → writtenString k2 = some "otp" →
        writtenString v2 = some c.Auth.OTP)) := by
  have part3 : ∀ c, Load parse s = (some c, none) → ∀ pairs k aps k2 v2,
      parse s = .ok (some (.mapping pairs)) → mergeFree pairs = true →
      (k, .mapping aps) ∈ pairs → writtenString k = some "auth" → mergeFree aps = true →
      (k2, v2) ∈ aps → writtenString k2 = some "otp" →
      writtenString v2 = some c.Auth.OTP := by
    intro c hl pairs k aps k2 v2 hp hmf hm hkey hmf2 hm2 hk2
    have hdec := Load_mapping_success parse s pairs c hp hl
    obtain ⟨ra, ha, hra, hauth⟩ := mappingStructPlain_auth pairs DefaultConfig (c, []) hmf hdec
      rfl k _ hm hkey
    simp only [unmarshalAuth] at ha hauth
    obtain ⟨g, hg, hv⟩ := mappingStructAuth_present aps _ ra hmf2 ha hra k2 v2 hm2 "otp" hk2
    obtain rfl : AuthField.otp = g := by simpa [authFieldOf] using hg
    rw [hauth]
    exact hv
  refine ⟨?_, ?_⟩
  · intro pairs hp hw
    obtain ⟨hmf, c, hdec⟩ := mappingStructPlain_wellTyped pairs DefaultConfig hw
    have hl : Load parse s = (some c, none) := by
      rw [Load_of_root parse s _ hp rfl]
      simp [unmarshalPlain, hdec]
    refine ⟨c, hl, ?_⟩
    intro k aps k2 v2 hm hkey hm2 hk2
    exact part3 c hl pairs k aps k2 v2 hp hmf hm hkey
      (wellTyped_auth_mergeFree pairs k aps hw hm hkey) hm2 hk2
  · intro c hl
    refine ⟨?_, ?_, part3 c hl⟩
    · intro hp
      rw [Load_of_no_document parse s hp] at hl
      simp only [Prod.mk.injEq, Option.some.injEq, and_true] at hl
      rw [← hl]
      rfl
    · intro n hp hk
      cases n with
      | scalar kind text =>
        cases kind with
        | null =>
          rw [Load_of_null_root parse s _ hp rfl] at hl
          simp only [Prod.mk.injEq, Option.some.injEq, and_true] at hl
          rw [← hl]
          rfl
        | binary data =>
          rw [Load_of_root parse s _ hp rfl] at hl
          cases data <;> simp [unmarshalPlain, scalarInto] at hl
        | _ =>
          rw [Load_of_root parse s _ hp rfl] at hl
          simp [unmarshalPlain, scalarInto] at hl
      | sequence cs =>
        rw [Load_of_root parse s _ hp rfl] at hl
        simp [unmarshalPlain] at hl
      | mapping pairs =>
        have hdec := Load_mapping_success parse s pairs c hp hl
        simp only [otpFree, List.all_eq_true, Bool.and_eq_true, Bool.not_eq_true'] at hk
        have hmf : mergeFree pairs = true :=
          (mergeFree_iff pairs).mpr (fun kv hm => (hk kv hm).1)
        cases hab : keyAbsent "auth" pairs with
        | true =>
          have := mappingStructPlain_absent pairs DefaultConfig (c, []) hmf hdec "auth" .auth
            (fun n hn => configFieldOf_eq n _ hn) hab
          simp only [Config.get, FieldValue.auth.injEq] at this
          rw [this]
          rfl
        | false =>
          obtain ⟨k, v, hm, hkey⟩ := exists_key_of_not_keyAbsent "auth" pairs hab
          obtain ⟨ra, ha, hra, hauth⟩ := mappingStructPlain_auth pairs DefaultConfig (c, [])
            hmf hdec rfl k v hm hkey
          simp only at hauth
          rw [hauth]
          rcases unmarshalAuth_ok v _ ra ha hra with ⟨_, hz⟩ | ⟨aps, rfl, hms⟩
          · rw [hz]
            rfl
          · have h1 := (hk (k, .mapping aps) hm).2
            simp only [hkey, bne_self_eq_false, Bool.false_or, Bool.and_eq_true] at h1
            exact mappingStructAuth_absent aps DefaultConfig.Auth ra h1.1 hms "otp" .otp
              (fun n hn => authFieldOf_eq n _ hn) h1.2

/-- C6 (amended), witness: the text with the key `otp` is accepted and gives the value
written; scenario B has no key `otp` and gives the empty one-time password. -/
theorem Load_OTP_from_otp_key_witness :
    (∃ c, Load exampleParse "auth:\n  otp: \"123456\"\n" = (some c, none) ∧
      writtenString (.str "123456") = some c.Auth.OTP) ∧
    (⟨⟨"", "", "", "abc123"⟩, "", "rust", [], "README.md"⟩ : Config).Auth.OTP = "" := by
  obtain ⟨c, hl, hotp⟩ := (Load_OTP_from_otp_key exampleParse "auth:\n  otp: \"123456\"\n").1
    [(.str "auth", .mapping [(.str "otp", .str "123456")])] (by rfl) (by decide)
  exact ⟨⟨c, hl, hotp (.str "auth") [(.str "otp", .str "123456")] (.str "otp") (.str "123456")
      (by simp) (by rfl) (by simp) (by rfl)⟩,
    ((Load_OTP_from_otp_key exampleParse "auth:\n  access_token: abc123\ntopic: rust\n").2
      ⟨⟨"", "", "", "abc123"⟩, "", "rust", [], "README.md"⟩ (by rfl)).2.1 _ (by rfl)
      (by decide)⟩

/-! ## C7: the text of String and its Load -/

/-- A string is its characters. -/
theorem string_mk_data (s : String) : String.mk s.data = s := rfl

/-- A word character is not a newline, a colon, a double quote or a space. -/
theorem wordChar_ne (c : Char) (h : wordChar c = true) :
    c ≠ '\n' ∧ c ≠ ':' ∧ c ≠ '"' ∧ c ≠ ' ' := by
  refine ⟨?_, ?_, ?_, ?_⟩ <;> (rintro rfl; revert h; decide)

/-- An ASCII letter is a word character, and none of the characters that start another
kind of line or value. -/
theorem isAlpha_ne (c : Char) (h : c.isAlpha = true) :
    wordChar c = true ∧ c ≠ '-' ∧ c ≠ ' ' ∧ c ≠ '"' ∧ c ≠ '[' := by
  refine ⟨by simp [wordChar, h], ?_, ?_, ?_, ?_⟩ <;> (rintro rfl; revert h; decide)

/-- The pieces of a text are never none. -/
theorem segments_ne_nil : ∀ (t : List Char), segments t ≠ [] := by
  intro t
  induction t with
  | nil => simp [segments]
  | cons c cs ih =>
    unfold segments
    split
    · simp
    · cases h : segments cs with
      | nil => simp
      | cons l ls => simp

/-- The first piece of a text that starts with a line. -/
theorem segments_line : ∀ (w rest : List Char), (∀ c ∈ w, c ≠ '\n') →
    segments (w ++ '\n' :: rest) = w :: segments rest := by
  intro w
  induction w with
  | nil => intro rest _; simp [segments]
  | cons c cs ih =>
    intro rest h
    have hc : c ≠ '\n' := h c (List.mem_cons_self _ _)
    have := ih rest (fun d hd => h d (List.mem_cons_of_mem _ hd))
    rw [List.cons_append, segments, if_neg hc, this]

/-- The lines of the text of a list of lines without newlines are these lines. -/
theorem stripFinal_joinLines : ∀ (ls : List (List Char)), (∀ l ∈ ls, ∀ c ∈ l, c ≠ '\n') →
    stripFinal (segments (joinLines ls)) = some ls := by
  intro ls
  induction ls with
  | nil => intro _; rfl
  | cons l ls ih =>
    intro h
    have h1 := ih (fun l2 hl2 => h l2 (List.mem_cons_of_mem _ hl2))
    simp only [joinLines]
    rw [segments_line l _ (h l (List.mem_cons_self _ _))]
    cases hs : segments (joinLines ls) with
    | nil => exact absurd hs (segments_ne_nil _)
    | cons l2 rest =>
      rw [hs] at h1
      simp only [stripFinal, h1]

/-- The word characters at the start of a word followed by a character that is none. -/
theorem takeWhile_word (w rest : List Char) (c : Char) (hw : w.all wordChar = true)
    (hc : wordChar c = false) :
    (w ++ c :: rest).takeWhile wordChar = w ∧ (w ++ c :: rest).dropWhile wordChar = c :: rest := by
  induction w with
  | nil => simp [List.takeWhile, List.dropWhile, hc]
  | cons d ds ih =>
    simp only [List.all_cons, Bool.and_eq_true] at hw
    have := ih hw.2
    rw [List.cons_append, List.takeWhile_cons, List.dropWhile_cons]
    simp only [hw.1, if_true]
    exact ⟨by rw [this.1], this.2⟩

/-- The characters of a plain word are word characters. -/
theorem plainWord_all (w : List Char) (h : plainWord w = true) :
    w.all wordChar = true ∧ ∃ c cs, w = c :: cs ∧ c.isAlpha = true := by
  cases w with
  | nil => simp [plainWord] at h
  | cons c cs =>
    simp only [plainWord, Bool.and_eq_true] at h
    exact ⟨by simp only [List.all_cons, (isAlpha_ne c h.1.1).1, h.1.2, Bool.and_self],
      c, cs, rfl, h.1.1⟩

/-- The presentation of a plain value holds no newline, is not `[]`, and is read back
as the string scalar of that value. -/
theorem scalarChars_spec (s : String) (v : List Char) (h : scalarChars s = some v) :
    (∀ c ∈ v, c ≠ '\n') ∧ parseValue v = some (Node.str s) := by
  unfold scalarChars at h
  by_cases h1 : s.data.isEmpty = true
  · simp only [h1, if_true, Option.some.injEq] at h
    subst h
    have hs : s = "" := by
      cases s with
      | mk d =>
        simp only [List.isEmpty_iff] at h1
        subst h1
        rfl
    subst hs
    exact ⟨by decide, by rfl⟩
  · simp only [h1, Bool.false_eq_true, if_false] at h
    by_cases h2 : plainWord s.data = true
    · simp only [h2, if_true, Option.some.injEq] at h
      subst h
      obtain ⟨hall, c, cs, hcs, hc⟩ := plainWord_all s.data h2
      obtain ⟨_, _, _, hq, hb⟩ := isAlpha_ne c hc
      constructor
      · intro d hd
        exact (wordChar_ne d (List.all_eq_true.mp hall d hd)).1
      · have hne : s.data ≠ ['[', ']'] := by
          rw [hcs]
          intro hEq
          exact hb (List.cons.inj hEq).1
        unfold parseValue
        rw [if_neg hne]
        rw [hcs] at h2
        simp only [hcs, parseScalar, hq, if_false, h2, if_true, Node.str]
        rw [← hcs, string_mk_data]
    · simp only [h2, Bool.false_eq_true, if_false] at h
      by_cases h3 : digitWord s.data = true
      · simp only [h3, if_true, Option.some.injEq] at h
        subst h
        simp only [digitWord, Bool.and_eq_true, decide_eq_true_eq] at h3
        have hall : s.data.all wordChar = true := by
          refine List.all_eq_true.mpr (fun d hd => ?_)
          have := List.all_eq_true.mp h3.1.2 d hd
          simp [wordChar, this]
        have hq : wordChar '"' = false := by decide
        obtain ⟨ht, hd⟩ := takeWhile_word s.data [] '"' hall hq
        constructor
        · intro d hd2
          simp only [List.mem_cons, List.mem_append, List.not_mem_nil, or_false] at hd2
          rcases hd2 with (rfl | hd2) | rfl
          · decide
          · exact (wordChar_ne d (List.all_eq_true.mp hall d hd2)).1
          · decide
        · have hne : ('"' :: s.data ++ ['"'] : List Char) ≠ ['[', ']'] := by
            intro hEq
            have := (List.cons.inj hEq).1
            revert this
            decide
          unfold parseValue
          rw [if_neg hne]
          simp [parseScalar, hd, ht, Node.str, string_mk_data]
      · simp [h3] at h

/-- A line `<key>: <value>` is read as its key and its value. -/
theorem parseEntry_line (key : String) (v : List Char) (n : Node)
    (hk : plainWord key.data = true) (hv : parseValue v = some n) :
    parseEntry (key.data ++ ':' :: ' ' :: v) = some (key, some n) := by
  obtain ⟨hall, _⟩ := plainWord_all key.data hk
  obtain ⟨ht, hd⟩ := takeWhile_word key.data (' ' :: v) ':' hall (by decide)
  unfold parseEntry
  simp only [ht, hd, hk, if_true, hv, string_mk_data]

/-- A line `<key>: <value>` at the left margin is an entry. -/
theorem parseLine_entry (key : String) (v : List Char) (n : Node)
    (hk : plainWord key.data = true) (hv : parseValue v = some n) :
    parseLine (entryLine [] key v) = some (.entry key n) := by
  obtain ⟨_, c, cs, hcs, hc⟩ := plainWord_all key.data hk
  obtain ⟨_, hm, hs, _, _⟩ := isAlpha_ne c hc
  have he := parseEntry_line key v n hk hv
  simp only [entryLine, List.nil_append]
  rw [hcs] at he ⊢
  simp only [List.cons_append] at he ⊢
  simp only [parseLine, hm, hs, if_false, he]

/-- A line `<key>: <value>` indented by two spaces is an indented entry. -/
theorem parseLine_nested (key : String) (v : List Char) (n : Node)
    (hk : plainWord key.data = true) (hv : parseValue v = some n) :
    parseLine (entryLine [' ', ' '] key v) = some (.nested key n) := by
  have he := parseEntry_line key v n hk hv
  simp only [entryLine, List.cons_append, List.nil_append, parseLine]
  simp [he]

/-- The item lines of a list of plain values hold no newline and are read as the items
of the string scalars of these values. -/
theorem itemLines_spec : ∀ (l : List String) (ls : List (List Char)), itemLines l = some ls →
    (∀ x ∈ ls, ∀ c ∈ x, c ≠ '\n') ∧
      parseLines ls = some (l.map fun s => Line.item (Node.str s)) := by
  intro l
  induction l with
  | nil =>
    intro ls h
    simp only [itemLines, Option.some.injEq] at h
    subst h
    exact ⟨by simp, rfl⟩
  | cons s rest ih =>
    intro ls h
    unfold itemLines at h
    cases hv : scalarChars s with
    | none => rw [hv] at h; simp at h
    | some v =>
      cases hr : itemLines rest with
      | none => rw [hv, hr] at h; simp at h
      | some ls2 =>
        rw [hv, hr] at h
        simp only [Option.some.injEq] at h
        subst h
        obtain ⟨hnl, hpv⟩ := scalarChars_spec s v hv
        obtain ⟨hnl2, hpl⟩ := ih ls2 hr
        have hps : parseScalar v = some (Node.str s) := by
          unfold parseValue at hpv
          split at hpv
          · simp [Node.str] at hpv
          · exact hpv
        constructor
        · intro x hx c hc
          rcases List.mem_cons.mp hx with rfl | hx2
          · simp only [List.mem_cons] at hc
            rcases hc with rfl | rfl | hc
            · decide
            · decide
            · exact hnl c hc
          · exact hnl2 x hx2 c hc
        · simp only [parseLines, parseLine, if_true, hps, hpl, List.map_cons]

/-- The lines of two lists of text lines that are in the grammar. -/
theorem parseLines_append : ∀ (a b : List (List Char)) (xa xb : List Line),
    parseLines a = some xa → parseLines b = some xb → parseLines (a ++ b) = some (xa ++ xb) := by
  intro a
  induction a with
  | nil =>
    intro b xa xb ha hb
    simp only [parseLines, Option.some.injEq] at ha
    subst ha
    simpa using hb
  | cons l ls ih =>
    intro b xa xb ha hb
    unfold parseLines at ha
    cases hl : parseLine l with
    | none => rw [hl] at ha; simp at ha
    | some x =>
      cases hls : parseLines ls with
      | none => rw [hl, hls] at ha; simp at ha
      | some xs =>
        rw [hl, hls] at ha
        simp only [Option.some.injEq] at ha
        subst ha
        have h2 := ih b xs xb hls hb
        rw [List.cons_append, parseLines, hl, h2]
        rfl

/-- The items of a sequence, assembled in front of a state in which no indented entry
waits. -/
theorem assemble_items : ∀ (l : List String) (p : Pending), p.nested = [] →
    (l.map fun s => Line.item (Node.str s)).foldr assemble (some p)
      = some { p with items := l.map Node.str ++ p.items } := by
  intro l
  induction l with
  | nil => intro p _; rfl
  | cons s rest ih =>
    intro p hp
    simp only [List.map_cons, List.foldr_cons, ih p hp, assemble, hp, List.isEmpty_nil,
      if_true, List.cons_append]

/-- The lines of the `sub_topics` entry hold no newline, are in the grammar, and are
assembled as the entry `sub_topics` with the sequence of the string scalars. -/
theorem subTopicLines_spec (l : List String) (ls : List (List Char))
    (h : subTopicLines l = some ls) :
    (∀ x ∈ ls, ∀ c ∈ x, c ≠ '\n') ∧ ∃ xs, parseLines ls = some xs ∧
      ∀ p : Pending, p.nested = [] → p.items = [] →
        xs.foldr assemble (some p)
          = some ⟨(Node.str "sub_topics", .sequence (l.map Node.str)) :: p.entries, [], []⟩ := by
  cases l with
  | nil =>
    simp only [subTopicLines, Option.some.injEq] at h
    subst h
    refine ⟨by decide, [.entry "sub_topics" (.sequence [])], by rfl, ?_⟩
    intro p hn hi
    simp [assemble, hn, hi, Node.str]
  | cons s rest =>
    simp only [subTopicLines] at h
    cases hi : itemLines (s :: rest) with
    | none => rw [hi] at h; simp at h
    | some ils =>
      rw [hi] at h
      simp only [Option.some.injEq] at h
      subst h
      obtain ⟨hnl, hpl⟩ := itemLines_spec (s :: rest) ils hi
      refine ⟨?_, .openKey "sub_topics" :: (s :: rest).map (fun s => Line.item (Node.str s)),
        ?_, ?_⟩
      · intro x hx
        rcases List.mem_cons.mp hx with rfl | hx2
        · decide
        · exact hnl x hx2
      · have h0 : parseLine "sub_topics:".data = some (.openKey "sub_topics") := by rfl
        simp only [parseLines, h0, hpl]
      · intro p hn hi2
        rw [List.foldr_cons, assemble_items (s :: rest) p hn]
        simp [assemble, hn, hi2, Node.str]

/-- A line `<indent><key>: <value>` holds no newline when its parts hold none. -/
theorem entryLine_no_newline (indent : List Char) (key : String) (v : List Char)
    (hi : ∀ c ∈ indent, c ≠ '\n') (hk : ∀ c ∈ key.data, c ≠ '\n') (hv : ∀ c ∈ v, c ≠ '\n') :
    ∀ c ∈ entryLine indent key v, c ≠ '\n' := by
  intro c hc
  simp only [entryLine, List.mem_append, List.mem_cons] at hc
  rcases hc with (hc | hc) | rfl | rfl | hc
  · exact hi c hc
  · exact hk c hc
  · decide
  · decide
  · exact hv c hc

/-- The text that `yaml.Marshal` emits for a `Config` with plain values is read by the
block parser as the node tree built for that `Config`. -/
theorem parseChars_marshalLines (c : Config) (ls : List (List Char))
    (h : marshalLines c = some ls) : parseChars (joinLines ls) = some (marshalNode c) := by
  unfold marshalLines at h
  cases hu : scalarChars c.Auth.Username with
  | none => simp [hu] at h
  | some u =>
  cases hp : scalarChars c.Auth.Password with
  | none => simp [hu, hp] at h
  | some p =>
  cases ho : scalarChars c.Auth.OTP with
  | none => simp [hu, hp, ho] at h
  | some o =>
  cases ha : scalarChars c.Auth.AccessToken with
  | none => simp [hu, hp, ho, ha] at h
  | some a =>
  cases hf : scalarChars c.Format with
  | none => simp [hu, hp, ho, ha, hf] at h
  | some f =>
  cases ht : scalarChars c.Topic with
  | none => simp [hu, hp, ho, ha, hf, ht] at h
  | some t =>
  cases hsub : subTopicLines c.SubTopics with
  | none => simp [hu, hp, ho, ha, hf, ht, hsub] at h
  | some sub =>
  cases hout : scalarChars c.OutputFile with
  | none => simp [hu, hp, ho, ha, hf, ht, hsub, hout] at h
  | some out =>
    simp only [hu, hp, ho, ha, hf, ht, hsub, hout, Option.some.injEq] at h
    subst h
    obtain ⟨nu, pu⟩ := scalarChars_spec _ u hu
    obtain ⟨np, pp⟩ := scalarChars_spec _ p hp
    obtain ⟨no, po⟩ := scalarChars_spec _ o ho
    obtain ⟨na, pa⟩ := scalarChars_spec _ a ha
    obtain ⟨nf, pf⟩ := scalarChars_spec _ f hf
    obtain ⟨nt, pt⟩ := scalarChars_spec _ t ht
    obtain ⟨nout, pout⟩ := scalarChars_spec _ out hout
    obtain ⟨nsub, xs, psub, asub⟩ := subTopicLines_spec c.SubTopics sub hsub
    have hnl : ∀ l ∈ ["auth:".data, entryLine [' ', ' '] "username" u,
        entryLine [' ', ' '] "password" p, entryLine [' ', ' '] "otp" o,
        entryLine [' ', ' '] "access_token" a, entryLine [] "format" f,
        entryLine [] "topic" t] ++ sub ++ [entryLine [] "output_file" out],
        ∀ ch ∈ l, ch ≠ '\n' := by
      intro l hl
      simp only [List.mem_append, List.mem_cons, List.mem_singleton, List.not_mem_nil,
        or_false] at hl
      rcases hl with ((rfl | rfl | rfl | rfl | rfl | rfl | rfl) | hl) | rfl
      · decide
      · exact entryLine_no_newline _ _ _ (by decide) (by decide) nu
      · exact entryLine_no_newline _ _ _ (by decide) (by decide) np
      · exact entryLine_no_newline _ _ _ (by decide) (by decide) no
      · exact entryLine_no_newline _ _ _ (by decide) (by decide) na
      · exact entryLine_no_newline _ _ _ (by decide) (by decide) nf
      · exact entryLine_no_newline _ _ _ (by decide) (by decide) nt
      · exact nsub l hl
      · exact entryLine_no_newline _ _ _ (by decide) (by decide) nout
    have hhead : parseLines ["auth:".data, entryLine [' ', ' '] "username" u,
        entryLine [' ', ' '] "password" p, entryLine [' ', ' '] "otp" o,
        entryLine [' ', ' '] "access_token" a, entryLine [] "format" f,
        entryLine [] "topic" t]
        = some [.openKey "auth", .nested "username" (Node.str c.Auth.Username),
            .nested "password" (Node.str c.Auth.Password), .nested "otp" (Node.str c.Auth.OTP),
            .nested "access_token" (Node.str c.Auth.AccessToken),
            .entry "format" (Node.str c.Format), .entry "topic" (Node.str c.Topic)] := by
      have h0 : parseLine "auth:".data = some (.openKey "auth") := by rfl
      simp only [parseLines, h0,
        parseLine_nested "username" u _ (by decide) pu,
        parseLine_nested "password" p _ (by decide) pp,
        parseLine_nested "otp" o _ (by decide) po,
        parseLine_nested "access_token" a _ (by decide) pa,
        parseLine_entry "format" f _ (by decide) pf,
        parseLine_entry "topic" t _ (by decide) pt]
    have htail : parseLines [entryLine [] "output_file" out]
        = some [.entry "output_file" (Node.str c.OutputFile)] := by
      simp only [parseLines, parseLine_entry "output_file" out _ (by decide) pout]
    have hall := parseLines_append _ _ _ _ (parseLines_append _ _ _ _ hhead psub) htail
    unfold parseChars
    rw [stripFinal_joinLines _ hnl]
    simp only [List.cons_append] at hall ⊢
    simp only [hall]
    simp only [List.foldr_cons, List.foldr_append, List.foldr_nil]
    have h1 : assemble (.entry "output_file" (Node.str c.OutputFile)) (some ⟨[], [], []⟩)
        = some ⟨[(Node.str "output_file", Node.str c.OutputFile)], [], []⟩ := by rfl
    rw [h1, asub _ rfl rfl]
    rfl

/-- The text that `yaml.Marshal` emits for a `Config` with plain values, as a string, is
read by the block parser as the node tree built for that `Config`. -/
theorem parseBlock_marshalText (c : Config) (t : String) (h : marshalText c = some t) :
    parseBlock t = some (marshalNode c) := by
  unfold marshalText at h
  cases hl : marshalLines c with
  | none => rw [hl] at h; simp at h
  | some ls =>
    rw [hl] at h
    simp only [Option.some.injEq] at h
    subst h
    exact parseChars_marshalLines c ls hl

/-- The sequence of string scalars built for a `[]string` decodes back to the same
strings, in the same order, without an issue. -/
theorem sequenceStrings_map_str : ∀ (l : List String),
    sequenceStrings (l.map Node.str) = .ok (l, []) := by
  intro l
  induction l with
  | nil => rfl
  | cons x rest ih => simp [sequenceStrings, ih, Node.str, unmarshalString]

/-- The node tree built for an `Auth` decodes back to that `Auth`, the field OTP
included, whatever the target held. -/
theorem unmarshalAuth_marshal (a a0 : Auth) :
    unmarshalAuth (marshalAuthNode a) a0 = .ok (a, []) := by
  simp [unmarshalAuth, marshalAuthNode, mappingStructAuth, mappingStruct, structLoop,
    structPair, Node.str, Node.isMerge, unmarshalString, authFieldOf, authField, Auth.set]

/-- The node tree built for a `Config` decodes back to that `Config`, whatever the target
held. -/
theorem unmarshalPlain_marshal (c c0 : Config) :
    unmarshalPlain (marshalNode c) c0 = .ok (c, []) := by
  have hs := sequenceStrings_map_str c.SubTopics
  simp only [Node.str] at hs
  have ha := fun a0 => unmarshalAuth_marshal c.Auth a0
  simp [unmarshalPlain, marshalNode, mappingStructPlain, mappingStruct, structLoop, structPair,
    Node.str, Node.isMerge, unmarshalString, configFieldOf, plainField, unmarshalStrings, hs, ha]

/-- Load, with the block parser, on the text emitted for a `Config` with plain values
returns that `Config`. -/
theorem Load_blockParse_marshalText (fallback : Parser) (c : Config) (t : String)
    (h : marshalText c = some t) : Load (blockParse fallback) t = (some c, none) := by
  have hp : blockParse fallback t = .ok (some (marshalNode c)) := by
    simp [blockParse, parseBlock_marshalText c t h]
  rw [Load_of_root (blockParse fallback) t _ hp rfl]
  simp [unmarshalPlain_marshal]

/-- A plain value has a presentation. -/
theorem scalarChars_of_plainValue (s : String) (h : plainValue s = true) :
    ∃ v, scalarChars s = some v := by
  unfold scalarChars
  simp only [plainValue, Bool.or_eq_true] at h
  by_cases h1 : s.data.isEmpty = true
  · exact ⟨_, by rw [if_pos h1]⟩
  · by_cases h2 : plainWord s.data = true
    · exact ⟨_, by rw [if_neg h1, if_pos h2]⟩
    · have h3 : digitWord s.data = true := by
        rcases h with (h | h) | h
        · exact absurd h h1
        · exact absurd h h2
        · exact h
      exact ⟨_, by rw [if_neg h1, if_neg h2, if_pos h3]⟩

/-- A list of plain values has item lines. -/
theorem itemLines_of_plain : ∀ (l : List String), l.all plainValue = true →
    ∃ ls, itemLines l = some ls := by
  intro l
  induction l with
  | nil => intro _; exact ⟨[], rfl⟩
  | cons s rest ih =>
    intro h
    simp only [List.all_cons, Bool.and_eq_true] at h
    obtain ⟨v, hv⟩ := scalarChars_of_plainValue s h.1
    obtain ⟨ls, hls⟩ := ih h.2
    exact ⟨('-' :: ' ' :: v) :: ls, by simp [itemLines, hv, hls]⟩

/-- The lines emitted for a `Config` with plain values: the entry `otp`, with the
presentation of the one-time password, is the fourth. -/
theorem marshalLines_of_plainConfig (c : Config) (h : plainConfig c = true) :
    ∃ l1 l2 l3 rest o, scalarChars c.Auth.OTP = some o ∧
      marshalLines c = some (l1 :: l2 :: l3 :: entryLine [' ', ' '] "otp" o :: rest) := by
  simp only [plainConfig, Bool.and_eq_true] at h
  obtain ⟨⟨⟨⟨⟨⟨⟨hu, hp⟩, ho⟩, ha⟩, hf⟩, ht⟩, hs⟩, hout⟩ := h
  obtain ⟨u, hu⟩ := scalarChars_of_plainValue _ hu
  obtain ⟨p, hp⟩ := scalarChars_of_plainValue _ hp
  obtain ⟨o, ho⟩ := scalarChars_of_plainValue _ ho
  obtain ⟨a, ha⟩ := scalarChars_of_plainValue _ ha
  obtain ⟨f, hf⟩ := scalarChars_of_plainValue _ hf
  obtain ⟨t, ht⟩ := scalarChars_of_plainValue _ ht
  obtain ⟨out, hout⟩ := scalarChars_of_plainValue _ hout
  have hsub : ∃ sub, subTopicLines c.SubTopics = some sub := by
    cases hl : c.SubTopics with
    | nil => exact ⟨_, rfl⟩
    | cons s rest =>
      rw [hl] at hs
      obtain ⟨ls, hls⟩ := itemLines_of_plain (s :: rest) hs
      exact ⟨"sub_topics:".data :: ls, by simp [subTopicLines, hls]⟩
  obtain ⟨sub, hsub⟩ := hsub
  refine ⟨"auth:".data, entryLine [' ', ' '] "username" u, entryLine [' ', ' '] "password" p,
    entryLine [' ', ' '] "access_token" a :: entryLine [] "format" f :: entryLine [] "topic" t ::
      (sub ++ [entryLine [] "output_file" out]), o, ho, ?_⟩
  simp only [marshalLines, hu, hp, ho, ha, hf, ht, hsub, hout, List.cons_append,
    List.nil_append]

/-- C7, counterexample: the example Config has a one-time password, the text of String
has the entry `otp` for it, and Load of that text returns the same one-time password, not
the empty string. -/
theorem Load_String_returns_OTP :
    exampleConfig.Auth.OTP = "123456" ∧
      exampleConfig.String (blockMarshal noMarshal)
        = "auth:\n  username: \"\"\n  password: \"\"\n  otp: \"123456\"\n" ++
          "  access_token: \"\"\nformat: \"\"\ntopic: golang\nsub_topics:\n- web\n- cli\n" ++
          "output_file: OUT.md\n" ∧
      Load (blockParse noParse) (exampleConfig.String (blockMarshal noMarshal))
        = (some ⟨⟨"", "", "123456", ""⟩, "", "golang", ["web", "cli"], "OUT.md"⟩, none) :=
  ⟨by rfl, by rfl, by rfl⟩

/-- C7 (amended): String writes the one-time password.  For every Config c whose strings
are plain values (empty, a plain word, or 1 to 18 digits), the text String(c) has the
line `  otp: ` followed by the presentation of Auth.OTP, and Load of String(c) returns a
Config whose Auth.OTP equals that of c. -/
theorem Load_String_keeps_OTP (fallbackM : Marshaler) (fallbackP : Parser) (c : Config)
    (hc : plainConfig c = true) :
    (∃ before after o, scalarChars c.Auth.OTP = some o ∧
      (c.String (blockMarshal fallbackM)).data
        = before ++ '\n' :: ("  otp: ".data ++ o) ++ '\n' :: after) ∧
    ∃ c2, Load (blockParse fallbackP) (c.String (blockMarshal fallbackM)) = (some c2, none) ∧
      c2.Auth.OTP = c.Auth.OTP := by
  obtain ⟨l1, l2, l3, rest, o, ho, hl⟩ := marshalLines_of_plainConfig c hc
  have ht : marshalText c = some (String.mk (joinLines
      (l1 :: l2 :: l3 :: entryLine [' ', ' '] "otp" o :: rest))) := by
    simp [marshalText, hl]
  have hs : c.String (blockMarshal fallbackM) = String.mk (joinLines
      (l1 :: l2 :: l3 :: entryLine [' ', ' '] "otp" o :: rest)) := by
    simp [Config.String, blockMarshal, ht]
  constructor
  · refine ⟨l1 ++ '\n' :: l2 ++ '\n' :: l3, joinLines rest, o, ho, ?_⟩
    rw [hs]
    have hk : entryLine [' ', ' '] "otp" o = "  otp: ".data ++ o := by
      simp [entryLine]
    simp [joinLines, hk]
  · rw [hs]
    exact ⟨c, Load_blockParse_marshalText fallbackP c _ ht, rfl⟩

/-- C7 (amended), witness: the one-time password of the example Config after String and
Load. -/
theorem Load_String_keeps_OTP_witness :
    ∃ c2, Load (blockParse noParse) (exampleConfig.String (blockMarshal noMarshal))
        = (some c2, none) ∧ c2.Auth.OTP = "123456" :=
  (Load_String_keeps_OTP noMarshal noParse exampleConfig (by decide)).2

end AwesomeGenerator
